import Mathlib

/-!
The `etcd_keys` resource of terraform-provider-etcd.

A shallow embedding of `src/etcd/resource_etcd_keys.go` and theorems about it.

* Go values of type `interface{}` that occur in a key entry are `Iface`; a key
  entry `map[string]interface{}` is an association list `Sub`; an element of
  the list returned by `d.Get("key").(*schema.Set).List()` is a `Raw`.
* A Go `error` is a `GoError`; a run-time panic (failed type assertion, nil
  dereference) is an explicit outcome.
* The etcd cluster reached through `*client.Client` is a `Store`; every client
  call is recorded in the `calls` log of a `World`.
* `log.Printf` calls have no effect on the values studied here and are left out.
-/

namespace Etcd

/-! ## Go values -/

/-- Dynamic Go values (`interface{}`) that can sit in a key entry. -/
inductive Iface
  | str (s : String)
  | bool (b : Bool)
  | int (n : Int)
  deriving DecidableEq, Repr

/-- Go map read `m[k]`; `none` is the missing key. -/
def mapGet {β : Type} (m : List (String × β)) (k : String) : Option β :=
  match m with
  | [] => none
  | (k', v) :: rest => if k' = k then some v else mapGet rest k

/-- Go map write `m[k] = v`: an existing key keeps its place, a new key is added. -/
def mapSet {β : Type} (m : List (String × β)) (k : String) (v : β) : List (String × β) :=
  match m with
  | [] => [(k, v)]
  | (k', v') :: rest => if k' = k then (k, v) :: rest else (k', v') :: mapSet rest k v

/-- One key entry, `map[string]interface{}`. -/
abbrev Sub := List (String × Iface)

/-- The computed variables, `map[string]string`. -/
abbrev Vars := List (String × String)

/-- An element of the key list: a key entry, or any other dynamic value. -/
inductive Raw
  | map (sub : Sub)
  | other (v : Iface)
  deriving DecidableEq, Repr

/-- The part of `client.EtcdError` the provider looks at, with its fields. -/
structure EtcdError where
  errorCode : Int
  message : String
  cause : String
  index : Nat
  deriving DecidableEq, Repr

/-- A Go `error`: a `*client.EtcdError`, or an error made by `errors.New` / `fmt.Errorf`
(or any other error type), known by its text. -/
inductive GoError
  | etcd (e : EtcdError)
  | plain (msg : String)
  deriving DecidableEq, Repr

/-- The method `Error()`; for `EtcdError` the format is `"%v: %v (%v) [%v]"`. -/
def GoError.text : GoError → String
  | .etcd e =>
    toString e.errorCode ++ ": " ++ e.message ++ " (" ++ e.cause ++ ") [" ++ toString e.index ++ "]"
  | .plain msg => msg

/-- A node of a response, `client.Node`, with the two fields the provider reads. -/
structure Node where
  value : String
  dir : Bool
  deriving DecidableEq, Repr

/-- A `*client.Response` that is not nil; its `Node` pointer may be nil. -/
structure Response where
  node : Option Node
  deriving DecidableEq, Repr

/-- The constant `etcdErr.EcodeKeyNotFound` of the etcd error package. -/
def EcodeKeyNotFound : Int := 100

/-- The constant `etcdErr.EcodeNotFile` of the etcd error package. -/
def EcodeNotFile : Int := 102

/-- Source: `IsKeyNotFound`. -/
def IsKeyNotFound (err : GoError) : Bool :=
  match err with
  | .etcd e => e.errorCode == EcodeKeyNotFound
  | .plain _ => false

/-- Go `strconv.FormatBool`. -/
def formatBool (b : Bool) : String := if b then "true" else "false"

/-! ## The remote store -/

/-- Modelled from the spec: the etcd cluster behind `*client.Client` (the go-etcd
client is not part of the repository). Following the store facade of the spec
(`get`, `set`, `delete` on a path, with a distinguishable not-found condition and
other remote errors), a store maps opaque path strings to nodes; `denied` marks the
paths on which the remote answers every request with an error other than not-found
(connectivity, permission). -/
structure Store where
  nodes : String → Option Node
  denied : String → Bool

/-- Modelled from the spec: `get(path)`. A missing path is reported as key-not-found
with a nil response; a present node comes back in a response. -/
def Store.get (s : Store) (path : String) : Option Response × Option GoError :=
  if s.denied path then (none, some (.plain ("request failed: " ++ path)))
  else
    match s.nodes path with
    | none => (none, some (.etcd ⟨EcodeKeyNotFound, "Key not found", path, 0⟩))
    | some n => (some ⟨some n⟩, none)

/-- Modelled from the spec: `set(path, value)`. The path then holds the leaf `value`;
a directory cannot be overwritten by a value (etcd answers "Not a file"). -/
def Store.set (s : Store) (path value : String) : Store × Option GoError :=
  if s.denied path then (s, some (.plain ("request failed: " ++ path)))
  else
    match s.nodes path with
    | some ⟨_, true⟩ => (s, some (.etcd ⟨EcodeNotFile, "Not a file", path, 0⟩))
    | _ => (⟨fun p => if p = path then some ⟨value, false⟩ else s.nodes p, s.denied⟩, none)

/-- Modelled from the spec: `delete(path)`, not recursive. A missing path is reported
as key-not-found; a directory is not removed by a non-recursive delete. -/
def Store.delete (s : Store) (path : String) : Store × Option GoError :=
  if s.denied path then (s, some (.plain ("request failed: " ++ path)))
  else
    match s.nodes path with
    | none => (s, some (.etcd ⟨EcodeKeyNotFound, "Key not found", path, 0⟩))
    | some ⟨_, true⟩ => (s, some (.etcd ⟨EcodeNotFile, "Not a file", path, 0⟩))
    | some ⟨_, false⟩ => (⟨fun p => if p = path then none else s.nodes p, s.denied⟩, none)

/-- A call made on the client. -/
inductive Call
  | get (path : String)
  | set (path value : String)
  | delete (path : String)
  deriving DecidableEq, Repr

/-- The store together with the log of the client calls made so far. -/
structure World where
  store : Store
  calls : List Call

/-- The call `c.Get(path, false, false)`. -/
def clientGet (w : World) (path : String) : (Option Response × Option GoError) × World :=
  (w.store.get path, ⟨w.store, w.calls ++ [.get path]⟩)

/-- The call `c.Set(path, value, 0)`; the response is dropped by the callers. -/
def clientSet (w : World) (path value : String) : Option GoError × World :=
  ((w.store.set path value).2, ⟨(w.store.set path value).1, w.calls ++ [.set path value]⟩)

/-- The call `c.Delete(path, false)`; the response is dropped by the callers. -/
def clientDelete (w : World) (path : String) : Option GoError × World :=
  ((w.store.delete path).2, ⟨(w.store.delete path).1, w.calls ++ [.delete path]⟩)

/-! ## Formatting helpers -/

/-- A hexadecimal digit, lower case. -/
def hexDigit (n : Nat) : Char :=
  if n < 10 then Char.ofNat (48 + n) else Char.ofNat (87 + n)

/-- Go `strconv.Quote` on one character: the quote and the backslash are escaped, the
control characters are written `\a \b \t \n \v \f \r` or `\xhh`; a character above
U+007F is taken as printable and copied. -/
def quoteChar (c : Char) : String :=
  if c.toNat = 34 then "\\\""
  else if c.toNat = 92 then "\\\\"
  else if c.toNat = 7 then "\\a"
  else if c.toNat = 8 then "\\b"
  else if c.toNat = 9 then "\\t"
  else if c.toNat = 10 then "\\n"
  else if c.toNat = 11 then "\\v"
  else if c.toNat = 12 then "\\f"
  else if c.toNat = 13 then "\\r"
  else if c.toNat < 32 ∨ c.toNat = 127 then
    "\\x" ++ String.mk [hexDigit (c.toNat / 16), hexDigit (c.toNat % 16)]
  else String.singleton c

/-- Go `strconv.Quote`: the text between double quotes, each character escaped. -/
def goQuote (s : String) : String :=
  "\"" ++ String.join (s.data.map quoteChar) ++ "\""

/-- Go `%#v` of a dynamic value: a string is quoted by `strconv.Quote`. -/
def goSyntaxIface : Iface → String
  | .str s => goQuote s
  | .bool b => formatBool b
  | .int n => toString n

/-- Insert a key in a sorted list of distinct keys. -/
def insertKey (k : String) : List String → List String
  | [] => [k]
  | x :: xs => if k < x then k :: x :: xs else if k = x then x :: xs else x :: insertKey k xs

/-- The keys of a Go map, sorted, as `fmt` prints them. -/
def sortedKeys {β : Type} (m : List (String × β)) : List String :=
  m.foldr (fun kv acc => insertKey kv.1 acc) []

/-- Go `%#v` of a key entry: the keys sorted, each with the value the map holds for it. -/
def goSyntaxSub (sub : Sub) : String :=
  "map[string]interface \x7b\x7d\x7b"
    ++ ", ".intercalate ((sortedKeys sub).filterMap fun k =>
        (mapGet sub k).map fun v => goQuote k ++ ":" ++ goSyntaxIface v)
    ++ "\x7d"

/-- Go `%#v` of an element of the key list. -/
def goSyntaxRaw : Raw → String
  | .map sub => goSyntaxSub sub
  | .other v => goSyntaxIface v

/-! ## The set hash -/

/-- One byte of the reflected CRC-32 (polynomial `0xEDB88320`). -/
def crc32Byte (crc b : Nat) : Nat :=
  (List.range 8).foldl
    (fun c _ => if c % 2 = 1 then (c >>> 1) ^^^ 0xEDB88320 else c >>> 1) (crc ^^^ b)

/-- Go `crc32.ChecksumIEEE`. -/
def crc32ChecksumIEEE (bytes : List Nat) : Nat :=
  (bytes.foldl crc32Byte 0xFFFFFFFF) ^^^ 0xFFFFFFFF

/-- The bytes of a Go string (UTF-8). -/
def goBytes (s : String) : List Nat :=
  s.data.flatMap fun c => (String.utf8EncodeChar c).map UInt8.toNat

/-- Terraform's `hashcode.String` with a 64-bit `int`: the checksum is never negative
there, so it is returned as it is. -/
def hashcodeString (s : String) : Int :=
  (crc32ChecksumIEEE (goBytes s) : Int)

/-- The buffer that `resourceEtcdKeysHash` fills: `"<name>-"` then `"<path>-"`.
`none` is the panic of a failed type assertion. -/
def resourceEtcdKeysHashBuf (v : Raw) : Option String :=
  match v with
  | .other _ => none
  | .map m =>
    match mapGet m "name" with
    | some (.str name) =>
      match mapGet m "path" with
      | some (.str path) => some ((name ++ "-") ++ (path ++ "-"))
      | _ => none
    | _ => none

/-- Source: `resourceEtcdKeysHash`. -/
def resourceEtcdKeysHash (v : Raw) : Option Int :=
  (resourceEtcdKeysHashBuf v).map hashcodeString

/-! ## Parsing an entry and resolving its value -/

/-- Source: `parseKey`. On success the name, the path and the entry itself. -/
def parseKey (raw : Raw) : Except GoError (String × String × Sub) :=
  match raw with
  | .other _ => .error (.plain ("Failed to unroll: " ++ goSyntaxRaw raw))
  | .map sub =>
    match mapGet sub "name" with
    | some (.str key) =>
      match mapGet sub "path" with
      | some (.str path) => .ok (key, path, sub)
      | _ => .error (.plain ("Failed to get path for key '" ++ key ++ "'"))
    | _ => .error (.plain ("Failed to expand key '" ++ goSyntaxSub sub ++ "'"))

/-- What a Go call does: it returns, or the goroutine panics. -/
inductive Go (α : Type)
  | ret (a : α)
  | panic
  deriving DecidableEq, Repr

/-- Source: `attributeValue`. With a nil response and no usable default the code goes on
to `resp.Node`, a nil dereference. -/
def attributeValue (sub : Sub) (key : String) (resp : Option Response) :
    Go (String × Option GoError) :=
  match resp with
  | none =>
    match mapGet sub "default" with
    | some (.str d) => .ret (d, none)
    | some (.bool b) => .ret (formatBool b, none)
    | _ => .panic
  | some r =>
    match r.node with
    | none => .ret ("", some (.plain "response has nil node"))
    | some n =>
      if n.dir then .ret ("", some (.plain (key ++ " is a directory")))
      else .ret (n.value, none)

/-- The error of a `Get` that the callers treat as fatal: `err != nil && !IsKeyNotFound(err)`. -/
def fatalGet (err : Option GoError) : Option GoError :=
  match err with
  | some e => if IsKeyNotFound e then none else some e
  | none => none

/-! ## The three operations -/

/-- The resource data `d`: its id, the key list and the computed `var` map. -/
structure ResourceData where
  id : String
  key : List Raw
  var : Vars
  deriving DecidableEq, Repr

/-- How one pass of a loop body ends: on to the next entry (with the entry as the body
left it), `return err`, or a panic. -/
inductive Step
  | next (w : World) (vars : Vars) (raw : Raw)
  | ret (w : World) (err : GoError)
  | panic (w : World)

/-- How a loop ends: past the last entry (with the entries as the bodies left them),
`return err`, or a panic. -/
inductive Loop
  | done (w : World) (vars : Vars) (keys : List Raw)
  | ret (w : World) (err : GoError)
  | panic (w : World)

/-- The body of the loop of `resourceEtcdKeysCreate`. -/
def createBody (w : World) (vars : Vars) (raw : Raw) : Step :=
  match parseKey raw with
  | .error err => .ret w err
  | .ok (key, path, sub) =>
    match mapGet sub "value" with
    | some (.str value) =>
      if value ≠ "" then
        match clientSet w path value with
        | (some err, w1) =>
          .ret w1 (.plain ("Failed to set etcd key '" ++ path ++ "': " ++ err.text))
        | (none, w1) =>
          .next w1 (mapSet vars key value) (.map (mapSet sub "value" (.str value)))
      else
        match clientGet w path with
        | ((resp, err), w1) =>
          match fatalGet err with
          | some e => .ret w1 (.plain ("Failed to get etcd key '" ++ path ++ "': " ++ e.text))
          | none =>
            match attributeValue sub key resp with
            | .panic => .panic w1
            | .ret (_, some e) =>
              .ret w1 (.plain ("Failed to get etcd value for '" ++ path ++ "': " ++ e.text))
            | .ret (value, none) => .next w1 (mapSet vars key value) (.map sub)
    | _ => .panic w

/-- The body of the loop of `resourceEtcdKeysRead`. -/
def readBody (w : World) (vars : Vars) (raw : Raw) : Step :=
  match parseKey raw with
  | .error err => .ret w err
  | .ok (key, path, sub) =>
    match clientGet w path with
    | ((resp, err), w1) =>
      match fatalGet err with
      | some e =>
        .ret w1 (.plain ("Failed to get value for path '" ++ path ++ "' from etcd: " ++ e.text))
      | none =>
        match attributeValue sub key resp with
        | .panic => .panic w1
        | .ret (_, some e) =>
          .ret w1 (.plain ("Failed to get value for path '" ++ path ++ "' from etcd: " ++ e.text))
        | .ret (value, none) =>
          .next w1 (mapSet vars key value) (.map (mapSet sub "value" (.str value)))

/-- The body of the loop of `resourceEtcdKeysDelete`; an entry whose `delete` is not the
bool `true` is skipped. -/
def deleteBody (w : World) (vars : Vars) (raw : Raw) : Step :=
  match parseKey raw with
  | .error err => .ret w err
  | .ok (_, path, sub) =>
    match mapGet sub "delete" with
    | some (.bool true) =>
      match clientDelete w path with
      | (some err, w1) =>
        if IsKeyNotFound err then .next w1 vars raw
        else .ret w1 (.plain ("Failed to delete etcd key '" ++ path ++ "': " ++ err.text))
      | (none, w1) => .next w1 vars raw
    | _ => .next w vars raw

/-- The loop `for _, raw := range keys` around a body. -/
def runLoop (body : World → Vars → Raw → Step) : List Raw → World → Vars → Loop
  | [], w, vars => .done w vars []
  | raw :: rest, w, vars =>
    match body w vars raw with
    | .ret w1 err => .ret w1 err
    | .panic w1 => .panic w1
    | .next w1 vars1 raw1 =>
      match runLoop body rest w1 vars1 with
      | .done w2 vars2 keys => .done w2 vars2 (raw1 :: keys)
      | .ret w2 err => .ret w2 err
      | .panic w2 => .panic w2

/-- How an operation ends: it returns `err` (nil on success), or it panics. -/
inductive Status
  | returned (err : Option GoError)
  | panicked
  deriving DecidableEq, Repr

/-- The state an operation leaves: the store and call log, the resource data, the status. -/
structure Run where
  world : World
  d : ResourceData
  status : Status

/-- Source: `resourceEtcdKeysCreate` (also the `Update` function). -/
def resourceEtcdKeysCreate (d : ResourceData) (w : World) : Run :=
  match runLoop createBody d.key w [] with
  | .done w1 vars keys => ⟨w1, ⟨"etcd", keys, vars⟩, .returned none⟩
  | .ret w1 err => ⟨w1, d, .returned (some err)⟩
  | .panic w1 => ⟨w1, d, .panicked⟩

/-- Source: `resourceEtcdKeysRead`. -/
def resourceEtcdKeysRead (d : ResourceData) (w : World) : Run :=
  match runLoop readBody d.key w [] with
  | .done w1 vars keys => ⟨w1, ⟨d.id, keys, vars⟩, .returned none⟩
  | .ret w1 err => ⟨w1, d, .returned (some err)⟩
  | .panic w1 => ⟨w1, d, .panicked⟩

/-- Source: `resourceEtcdKeysDelete`. -/
def resourceEtcdKeysDelete (d : ResourceData) (w : World) : Run :=
  match runLoop deleteBody d.key w [] with
  | .done w1 _ _ => ⟨w1, ⟨"", d.key, d.var⟩, .returned none⟩
  | .ret w1 err => ⟨w1, d, .returned (some err)⟩
  | .panic w1 => ⟨w1, d, .panicked⟩

/-! ## Small concrete inputs -/

/-- A key entry as the schema delivers it: all five fields present. -/
def mkEntry (name path value dflt : String) (del : Bool) : Raw :=
  .map [("name", .str name), ("path", .str path), ("value", .str value),
    ("default", .str dflt), ("delete", .bool del)]

/-- The store with no node and no failing path. -/
def emptyStore : Store := ⟨fun _ => none, fun _ => false⟩

/-- A store given by the list of its nodes. -/
def storeOf (l : List (String × Node)) : Store := ⟨mapGet l, fun _ => false⟩

/-- The world a loop body leaves. -/
def Step.world : Step → World
  | .next w _ _ => w
  | .ret w _ => w
  | .panic w => w

/-- The world a loop leaves. -/
def Loop.world : Loop → World
  | .done w _ _ => w
  | .ret w _ => w
  | .panic w => w

/-- The call is a `Get`. -/
def Call.isGet : Call → Bool
  | .get _ => true
  | _ => false

/-- The text `needle` occurs in the text `hay`. -/
def occursIn (needle hay : String) : Prop := needle.data <:+: hay.data

/-- The entry configures the default `dv`: a string, or a bool rendered by `FormatBool`. -/
def hasDefault (sub : Sub) (dv : String) : Prop :=
  mapGet sub "default" = some (.str dv) ∨
    ∃ b, mapGet sub "default" = some (.bool b) ∧ dv = formatBool b

/-- An entry that apply resolves from its default on the store `s`: its value is empty,
`get` of its path reports key-not-found, and it configures a default. -/
def readsDefault (s : Store) (raw : Raw) : Prop :=
  ∃ key path sub dv e, parseKey raw = .ok (key, path, sub) ∧
    mapGet sub "value" = some (.str "") ∧ s.get path = (none, some e) ∧
    IsKeyNotFound e = true ∧ hasDefault sub dv

/-- An entry reading the directory `/dir`. -/
def exDirData : ResourceData := ⟨"", [mkEntry "b" "/dir" "" "" false], []⟩

/-- A store in which `/dir` is a directory. -/
def exDirWorld : World := ⟨storeOf [("/dir", ⟨"", true⟩)], []⟩

/-- An entry with an empty value and the default `fallback`. -/
def exDefaultEntry : Raw := mkEntry "b" "/y" "" "fallback" false

/-- A store in which `/y` holds the value `remote`. -/
def exLeafWorld : World := ⟨storeOf [("/y", ⟨"remote", false⟩)], []⟩

/-- The name of an entry that `parseKey` accepts. -/
def nameOf (raw : Raw) : Option String :=
  match parseKey raw with
  | .ok (key, _, _) => some key
  | .error _ => none

/-- The path of an entry that `parseKey` accepts. -/
def pathOf (raw : Raw) : Option String :=
  match parseKey raw with
  | .ok (_, path, _) => some path
  | .error _ => none

/-- The path that destroy deletes for this entry: the path of an accepted entry whose
`delete` is the bool `true`. -/
def deletedPath (raw : Raw) : Option String :=
  match parseKey raw with
  | .ok (_, path, sub) =>
    match mapGet sub "delete" with
    | some (.bool true) => some path
    | _ => none
  | .error _ => none

/-- The path that apply writes for this entry: the path of an accepted entry whose value
is a non-empty string. -/
def writerOf (raw : Raw) : Option String :=
  match parseKey raw with
  | .ok (_, path, sub) =>
    match mapGet sub "value" with
    | some (.str value) => if value ≠ "" then some path else none
    | _ => none
  | .error _ => none

/-- The path that apply reads for this entry: the path of an accepted entry whose value
is the empty string. -/
def readerOf (raw : Raw) : Option String :=
  match parseKey raw with
  | .ok (_, path, sub) =>
    match mapGet sub "value" with
    | some (.str value) => if value ≠ "" then none else some path
    | _ => none
  | .error _ => none

/-- No entry that apply reads comes, in processing order, before an entry that apply
writes on the same path. -/
def noReadBeforeWrite (ks : List Raw) : Prop :=
  ks.Pairwise (fun r1 r2 => ∀ p, readerOf r1 = some p → writerOf r2 ≠ some p)

/-- An entry writing `1` to `/x`. -/
def exWriteOne : Raw := mkEntry "a" "/x" "1" "" false

/-- Another entry writing to `/x`, the value `2`. -/
def exWriteTwo : Raw := mkEntry "b" "/x" "2" "" false

/-- An entry reading `/x`, with the default `d`. -/
def exReadX : Raw := mkEntry "a" "/x" "" "d" false

/-- An entry writing `1` to `/x` under the name `b`. -/
def exWriteX : Raw := mkEntry "b" "/x" "1" "" false

/-- Two entries on the path `/x`, the first kept on destroy, the second deleted. -/
def exKeepEntry : Raw := mkEntry "a" "/x" "" "" false

/-- The entry on `/x` that destroy deletes. -/
def exDropEntry : Raw := mkEntry "b" "/x" "" "" true

/-- A store in which `/x` holds the value `1`. -/
def exXWorld : World := ⟨storeOf [("/x", ⟨"1", false⟩)], []⟩

/-- Two entries whose names and paths differ but whose hash buffers agree. -/
def exDashA : Raw := mkEntry "a-" "b" "" "" false

/-- The second entry of the pair. -/
def exDashB : Raw := mkEntry "a" "-b" "" "" false

/-- An entry that apply resolves from the store `s`: its value is empty and `get` of its
path returns a leaf node. -/
def readsLeaf (s : Store) (raw : Raw) : Prop :=
  ∃ key path sub v, parseKey raw = .ok (key, path, sub) ∧
    mapGet sub "value" = some (.str "") ∧ s.get path = (some ⟨some ⟨v, false⟩⟩, none)

/-- An entry that destroy can process on the store `s`: `parseKey` accepts it, and the
path it deletes, if any, is neither a failing path nor a directory. -/
def deletable (s : Store) (raw : Raw) : Prop :=
  (∃ key path sub, parseKey raw = .ok (key, path, sub)) ∧
    ∀ p, deletedPath raw = some p → s.denied p = false ∧ ∀ v, s.nodes p ≠ some ⟨v, true⟩

/-- The entry `b` on `/z`, no value, no default configured. -/
def exPlainZ : Raw := mkEntry "b" "/z" "" "" false

/-- The entry `b` on `/y`, no value, no default configured. -/
def exPlainY : Raw := mkEntry "b" "/y" "" "" false

/-- A store in which `/z` holds `remote` and `/y` holds `other`. -/
def exTwoLeafWorld : World :=
  ⟨storeOf [("/z", ⟨"remote", false⟩), ("/y", ⟨"other", false⟩)], []⟩

/-- The entry `b` on `/z` with the default `first`. -/
def exDefaultZ : Raw := mkEntry "b" "/z" "" "first" false

/-- The entry `b` on `/y` with the default `second`. -/
def exDefaultY : Raw := mkEntry "b" "/y" "" "second" false

/-- The entry `b` on `/gone`, deleted on destroy. -/
def exGoneEntry : Raw := mkEntry "b" "/gone" "" "" true

/-! ## General lemmas -/

theorem mapGet_mapSet_same {β : Type} (m : List (String × β)) (k : String) (v : β) :
    mapGet (mapSet m k v) k = some v := by
  induction m with
  | nil => simp [mapSet, mapGet]
  | cons kv rest ih =>
    obtain ⟨k', v'⟩ := kv
    by_cases h : k' = k <;> simp [mapSet, mapGet, h, ih]

theorem mapGet_mapSet_other {β : Type} (m : List (String × β)) (k k2 : String) (v : β)
    (h : k2 ≠ k) : mapGet (mapSet m k v) k2 = mapGet m k2 := by
  induction m with
  | nil => simp [mapSet, mapGet, Ne.symm h]
  | cons kv rest ih =>
    obtain ⟨k', v'⟩ := kv
    by_cases h1 : k' = k
    · subst h1
      simp [mapSet, mapGet, Ne.symm h]
    · by_cases h2 : k' = k2
      · subst h2
        simp [mapSet, mapGet, h1]
      · simp [mapSet, mapGet, h1, h2, ih]

theorem mapSet_eq_self {β : Type} (m : List (String × β)) (k : String) (v : β)
    (h : mapGet m k = some v) : mapSet m k v = m := by
  induction m with
  | nil => simp [mapGet] at h
  | cons kv rest ih =>
    obtain ⟨k', v'⟩ := kv
    by_cases h1 : k' = k
    · subst h1
      simp [mapGet] at h
      simp [mapSet, h]
    · simp [mapGet, h1] at h
      simp [mapSet, h1, ih h]

theorem runLoop_append (body : World → Vars → Raw → Step) (pre rest : List Raw)
    (w : World) (vars : Vars) :
    runLoop body (pre ++ rest) w vars =
      match runLoop body pre w vars with
      | .done w1 vars1 ks1 =>
        match runLoop body rest w1 vars1 with
        | .done w2 vars2 ks2 => .done w2 vars2 (ks1 ++ ks2)
        | .ret w2 err => .ret w2 err
        | .panic w2 => .panic w2
      | .ret w1 err => .ret w1 err
      | .panic w1 => .panic w1 := by
  induction pre generalizing w vars with
  | nil =>
    simp only [List.nil_append, runLoop]
    cases runLoop body rest w vars <;> rfl
  | cons raw pre ih =>
    rw [List.cons_append]
    simp only [runLoop]
    cases hb : body w vars raw with
    | ret w1 err => rfl
    | panic w1 => rfl
    | next w1 vars1 raw1 =>
      simp only []
      rw [ih]
      cases runLoop body pre w1 vars1 with
      | ret w2 err => rfl
      | panic w2 => rfl
      | done w2 vars2 ks2 =>
        simp only []
        cases runLoop body rest w2 vars2 <;> simp

/-- A loop that reaches an entry on which the body returns an error returns that error. -/
theorem runLoop_reach_ret (body : World → Vars → Raw → Step) (pre post : List Raw) (raw : Raw)
    (w w1 w2 : World) (vars vars1 : Vars) (ks1 : List Raw) (err : GoError)
    (hpre : runLoop body pre w vars = .done w1 vars1 ks1)
    (hb : body w1 vars1 raw = .ret w2 err) :
    runLoop body (pre ++ raw :: post) w vars = .ret w2 err := by
  rw [runLoop_append, hpre]
  simp [runLoop, hb]

/-! ### The read branch of apply, and refresh, on one entry -/

theorem attributeValue_default (sub : Sub) (key dv : String) (h : hasDefault sub dv) :
    attributeValue sub key none = .ret (dv, none) := by
  rcases h with h | ⟨b, h, rfl⟩ <;> simp [attributeValue, h]

theorem fatalGet_notFound (e : GoError) (h : IsKeyNotFound e = true) :
    fatalGet (some e) = none := by
  simp [fatalGet, h]

theorem createBody_read_leaf (w : World) (vars : Vars) (raw : Raw) (key path v : String)
    (sub : Sub) (hp : parseKey raw = .ok (key, path, sub))
    (hv : mapGet sub "value" = some (.str ""))
    (hget : w.store.get path = (some ⟨some ⟨v, false⟩⟩, none)) :
    createBody w vars raw
      = .next ⟨w.store, w.calls ++ [.get path]⟩ (mapSet vars key v) (.map sub) := by
  simp [createBody, hp, hv, clientGet, hget, fatalGet, attributeValue]

theorem createBody_read_dir (w : World) (vars : Vars) (raw : Raw) (key path v : String)
    (sub : Sub) (hp : parseKey raw = .ok (key, path, sub))
    (hv : mapGet sub "value" = some (.str ""))
    (hget : w.store.get path = (some ⟨some ⟨v, true⟩⟩, none)) :
    createBody w vars raw = .ret ⟨w.store, w.calls ++ [.get path]⟩
      (.plain ("Failed to get etcd value for '" ++ path ++ "': " ++ (key ++ " is a directory"))) := by
  simp [createBody, hp, hv, clientGet, hget, fatalGet, attributeValue, GoError.text]

theorem readBody_dir (w : World) (vars : Vars) (raw : Raw) (key path v : String)
    (sub : Sub) (hp : parseKey raw = .ok (key, path, sub))
    (hget : w.store.get path = (some ⟨some ⟨v, true⟩⟩, none)) :
    readBody w vars raw = .ret ⟨w.store, w.calls ++ [.get path]⟩
      (.plain ("Failed to get value for path '" ++ path ++ "' from etcd: "
        ++ (key ++ " is a directory"))) := by
  simp [readBody, hp, clientGet, hget, fatalGet, attributeValue, GoError.text]

theorem createBody_read_default (w : World) (vars : Vars) (raw : Raw) (key path dv : String)
    (sub : Sub) (e : GoError) (hp : parseKey raw = .ok (key, path, sub))
    (hv : mapGet sub "value" = some (.str ""))
    (hget : w.store.get path = (none, some e)) (he : IsKeyNotFound e = true)
    (hdef : hasDefault sub dv) :
    createBody w vars raw
      = .next ⟨w.store, w.calls ++ [.get path]⟩ (mapSet vars key dv) (.map sub) := by
  simp [createBody, hp, hv, clientGet, hget, fatalGet_notFound e he,
    attributeValue_default sub key dv hdef]

theorem occursIn_of_data (needle hay : String) (l r : List Char)
    (h : hay.data = l ++ needle.data ++ r) : occursIn needle hay :=
  ⟨l, r, h.symm⟩

/-- The wrapped directory error keeps the entry name and the word `directory`. -/
theorem occursIn_wrapped (head key : String) :
    occursIn key (head ++ (key ++ " is a directory")) ∧
      occursIn "directory" (head ++ (key ++ " is a directory")) := by
  constructor
  · exact occursIn_of_data _ _ head.data " is a directory".data (by simp [String.data_append])
  · exact occursIn_of_data _ _ (head.data ++ key.data ++ " is a ".data) []
      (by simp [String.data_append])

/-- Refresh, on one entry, leaves the store alone and calls at most `Get`. -/
theorem readBody_world (w : World) (vars : Vars) (raw : Raw) :
    (readBody w vars raw).world.store = w.store ∧
      ∃ gets, (readBody w vars raw).world.calls = w.calls ++ gets ∧
        ∀ c ∈ gets, c.isGet = true := by
  unfold readBody
  split
  · exact ⟨rfl, [], by simp [Step.world], by simp⟩
  · simp only [clientGet]
    split
    · exact ⟨rfl, [.get _], rfl, by simp [Call.isGet]⟩
    · split
      · exact ⟨rfl, [.get _], rfl, by simp [Call.isGet]⟩
      · exact ⟨rfl, [.get _], rfl, by simp [Call.isGet]⟩
      · exact ⟨rfl, [.get _], rfl, by simp [Call.isGet]⟩

theorem runLoop_readBody_world (ks : List Raw) (w : World) (vars : Vars) :
    (runLoop readBody ks w vars).world.store = w.store ∧
      ∃ gets, (runLoop readBody ks w vars).world.calls = w.calls ++ gets ∧
        ∀ c ∈ gets, c.isGet = true := by
  induction ks generalizing w vars with
  | nil => exact ⟨rfl, [], by simp [runLoop, Loop.world], by simp⟩
  | cons raw rest ih =>
    have hb := readBody_world w vars raw
    simp only [runLoop]
    cases hs : readBody w vars raw with
    | ret w1 err => simpa [hs, Step.world, Loop.world] using hb
    | panic w1 => simpa [hs, Step.world, Loop.world] using hb
    | next w1 vars1 raw1 =>
      rw [hs] at hb
      simp only [Step.world] at hb
      obtain ⟨hst, g1, hc1, hg1⟩ := hb
      obtain ⟨hst2, g2, hc2, hg2⟩ := ih w1 vars1
      have hw : (match runLoop readBody rest w1 vars1 with
          | .done w2 vars2 keys => Loop.done w2 vars2 (raw1 :: keys)
          | .ret w2 err => Loop.ret w2 err
          | .panic w2 => Loop.panic w2).world = (runLoop readBody rest w1 vars1).world := by
        cases runLoop readBody rest w1 vars1 <;> rfl
      simp only [hw]
      refine ⟨hst2.trans hst, g1 ++ g2, ?_, ?_⟩
      · rw [hc2, hc1, List.append_assoc]
      · intro c hc
        rcases List.mem_append.1 hc with h | h
        · exact hg1 c h
        · exact hg2 c h

theorem create_reach_ret (d : ResourceData) (w w1 w2 : World) (pre post : List Raw) (raw : Raw)
    (vars1 : Vars) (ks1 : List Raw) (err : GoError) (hkeys : d.key = pre ++ raw :: post)
    (hpre : runLoop createBody pre w [] = .done w1 vars1 ks1)
    (hb : createBody w1 vars1 raw = .ret w2 err) :
    resourceEtcdKeysCreate d w = ⟨w2, d, .returned (some err)⟩ := by
  simp [resourceEtcdKeysCreate, hkeys, runLoop_reach_ret createBody pre post raw w w1 w2 [] vars1 ks1
    err hpre hb]

theorem read_reach_ret (d : ResourceData) (w w1 w2 : World) (pre post : List Raw) (raw : Raw)
    (vars1 : Vars) (ks1 : List Raw) (err : GoError) (hkeys : d.key = pre ++ raw :: post)
    (hpre : runLoop readBody pre w [] = .done w1 vars1 ks1)
    (hb : readBody w1 vars1 raw = .ret w2 err) :
    resourceEtcdKeysRead d w = ⟨w2, d, .returned (some err)⟩ := by
  simp [resourceEtcdKeysRead, hkeys, runLoop_reach_ret readBody pre post raw w w1 w2 [] vars1 ks1
    err hpre hb]

/-! ## The claims -/

/-- C6: refresh never writes. Whatever the key set and the store, and however
`resourceEtcdKeysRead` ends (success, error or panic), the store it leaves is the store it
started from, and the calls it made on the client are all `Get` calls. -/
theorem refresh_never_writes (d : ResourceData) (w : World) :
    (resourceEtcdKeysRead d w).world.store = w.store ∧
      ∃ gets, (resourceEtcdKeysRead d w).world.calls = w.calls ++ gets ∧
        ∀ c ∈ gets, c.isGet = true := by
  have h := runLoop_readBody_world d.key w []
  have hw : (resourceEtcdKeysRead d w).world = (runLoop readBody d.key w []).world := by
    unfold resourceEtcdKeysRead
    cases runLoop readBody d.key w [] <;> rfl
  rw [hw]
  exact h

/-- C7: a directory node is an error. `attributeValue` on a directory node returns the
error `<name> is a directory`. When apply reaches an entry with empty value, or refresh
reaches any entry, and the `get` of its path returns a directory node, the operation
returns an error whose text contains the entry name and the word `directory`, and the
resource data (the `var` map with it) is left as it was. -/
theorem directory_node_is_an_error (d : ResourceData) (w w1 : World) (pre post : List Raw)
    (raw : Raw) (vars1 : Vars) (ks1 : List Raw) (key path v : String) (sub : Sub)
    (hkeys : d.key = pre ++ raw :: post)
    (hp : parseKey raw = .ok (key, path, sub))
    (hget : w1.store.get path = (some ⟨some ⟨v, true⟩⟩, none)) :
    attributeValue sub key (some ⟨some ⟨v, true⟩⟩)
        = .ret ("", some (.plain (key ++ " is a directory"))) ∧
    (runLoop createBody pre w [] = .done w1 vars1 ks1 →
      mapGet sub "value" = some (.str "") →
      ∃ msg, (resourceEtcdKeysCreate d w).status = .returned (some (.plain msg)) ∧
        occursIn key msg ∧ occursIn "directory" msg ∧ (resourceEtcdKeysCreate d w).d = d) ∧
    (runLoop readBody pre w [] = .done w1 vars1 ks1 →
      ∃ msg, (resourceEtcdKeysRead d w).status = .returned (some (.plain msg)) ∧
        occursIn key msg ∧ occursIn "directory" msg ∧ (resourceEtcdKeysRead d w).d = d) := by
  refine ⟨by simp [attributeValue], ?_, ?_⟩
  · intro hpre hv
    have hb := createBody_read_dir w1 vars1 raw key path v sub hp hv hget
    rw [create_reach_ret d w w1 _ pre post raw vars1 ks1 _ hkeys hpre hb]
    exact ⟨_, rfl, (occursIn_wrapped _ key).1, (occursIn_wrapped _ key).2, rfl⟩
  · intro hpre
    have hb := readBody_dir w1 vars1 raw key path v sub hp hget
    rw [read_reach_ret d w w1 _ pre post raw vars1 ks1 _ hkeys hpre hb]
    exact ⟨_, rfl, (occursIn_wrapped _ key).1, (occursIn_wrapped _ key).2, rfl⟩

/-- Witness of C7: the entry `b` reads `/dir`, a directory. -/
theorem directory_node_is_an_error_witness :
    (∃ msg, (resourceEtcdKeysCreate exDirData exDirWorld).status
        = .returned (some (.plain msg)) ∧
      occursIn "b" msg ∧ occursIn "directory" msg ∧
      (resourceEtcdKeysCreate exDirData exDirWorld).d = exDirData) ∧
    (∃ msg, (resourceEtcdKeysRead exDirData exDirWorld).status
        = .returned (some (.plain msg)) ∧
      occursIn "b" msg ∧ occursIn "directory" msg ∧
      (resourceEtcdKeysRead exDirData exDirWorld).d = exDirData) :=
  have h := directory_node_is_an_error exDirData exDirWorld exDirWorld [] []
    (mkEntry "b" "/dir" "" "" false) [] [] "b" "/dir" ""
    [("name", .str "b"), ("path", .str "/dir"), ("value", .str ""),
      ("default", .str ""), ("delete", .bool false)] (by rfl) (by rfl) (by rfl)
  ⟨h.2.1 (by rfl) (by rfl), h.2.2 (by rfl)⟩

/-- C9, the code at the failing input: apply on the entry `b` (empty value, default
`fallback`) and an empty store succeeds with `var[b] = fallback`, but the entry it
persists still has the empty value; refresh on the same input persists the entry with
value `fallback`. -/
theorem create_read_branch_keeps_value_empty :
    (resourceEtcdKeysCreate ⟨"", [exDefaultEntry], []⟩ ⟨emptyStore, []⟩).status
        = .returned none ∧
      mapGet (resourceEtcdKeysCreate ⟨"", [exDefaultEntry], []⟩ ⟨emptyStore, []⟩).d.var "b"
        = some "fallback" ∧
      (resourceEtcdKeysCreate ⟨"", [exDefaultEntry], []⟩ ⟨emptyStore, []⟩).d.key
        = [mkEntry "b" "/y" "" "fallback" false] ∧
      (resourceEtcdKeysRead ⟨"", [exDefaultEntry], []⟩ ⟨emptyStore, []⟩).d.key
        = [mkEntry "b" "/y" "fallback" "fallback" false] := by
  refine ⟨by rfl, by rfl, by rfl, by rfl⟩

theorem append_sep_inj {α : Type} (a : α) (l1 l2 r1 r2 : List α) (h1 : a ∉ l1) (h2 : a ∉ l2)
    (h : l1 ++ a :: r1 = l2 ++ a :: r2) : l1 = l2 ∧ r1 = r2 := by
  induction l1 generalizing l2 with
  | nil =>
    cases l2 with
    | nil => simpa using h
    | cons b t =>
      simp only [List.nil_append, List.cons_append, List.cons.injEq] at h
      exact absurd (List.mem_cons.2 (Or.inl h.1)) h2
  | cons c t ih =>
    cases l2 with
    | nil =>
      simp only [List.nil_append, List.cons_append, List.cons.injEq] at h
      exact absurd (List.mem_cons.2 (Or.inl h.1.symm)) h1
    | cons b t2 =>
      simp only [List.cons_append, List.cons.injEq] at h
      have h1' : a ∉ t := fun hm => h1 (List.mem_cons_of_mem _ hm)
      have h2' : a ∉ t2 := fun hm => h2 (List.mem_cons_of_mem _ hm)
      obtain ⟨e1, e2⟩ := ih t2 h1' h2' h.2
      exact ⟨by rw [h.1, e1], e2⟩

theorem hashBuf_eq (m : Sub) (n p : String) (hn : mapGet m "name" = some (.str n))
    (hp : mapGet m "path" = some (.str p)) :
    resourceEtcdKeysHashBuf (.map m) = some ((n ++ "-") ++ (p ++ "-")) := by
  simp [resourceEtcdKeysHashBuf, hn, hp]

/-- C10, the claim as amended: the identity string of an entry is `<name>-<path>-`. It is
built from the name and the path alone, so writing any other field (value, default,
delete) never changes it, and entries with the same name and the same path have the same
string and the same hash; two entries whose names contain no `-` have the same string only
if they have the same name and the same path. -/
theorem hash_identity_of_dash_free_names (m1 m2 : Sub) (n1 p1 n2 p2 : String)
    (h1n : mapGet m1 "name" = some (.str n1)) (h1p : mapGet m1 "path" = some (.str p1))
    (h2n : mapGet m2 "name" = some (.str n2)) (h2p : mapGet m2 "path" = some (.str p2)) :
    resourceEtcdKeysHashBuf (.map m1) = some ((n1 ++ "-") ++ (p1 ++ "-")) ∧
    (∀ (k : String) (v : Iface), k ≠ "name" → k ≠ "path" →
      resourceEtcdKeysHashBuf (.map (mapSet m1 k v)) = resourceEtcdKeysHashBuf (.map m1)) ∧
    (n1 = n2 → p1 = p2 →
      resourceEtcdKeysHashBuf (.map m1) = resourceEtcdKeysHashBuf (.map m2) ∧
      resourceEtcdKeysHash (.map m1) = resourceEtcdKeysHash (.map m2)) ∧
    ('-' ∉ n1.data → '-' ∉ n2.data →
      resourceEtcdKeysHashBuf (.map m1) = resourceEtcdKeysHashBuf (.map m2) →
      n1 = n2 ∧ p1 = p2) := by
  refine ⟨hashBuf_eq m1 n1 p1 h1n h1p, ?_, ?_, ?_⟩
  · intro k v hk1 hk2
    rw [hashBuf_eq m1 n1 p1 h1n h1p]
    apply hashBuf_eq
    · rw [mapGet_mapSet_other _ _ _ _ (Ne.symm hk1), h1n]
    · rw [mapGet_mapSet_other _ _ _ _ (Ne.symm hk2), h1p]
  · intro hn hp
    subst hn
    subst hp
    have hb : resourceEtcdKeysHashBuf (.map m1) = resourceEtcdKeysHashBuf (.map m2) := by
      rw [hashBuf_eq m1 n1 p1 h1n h1p, hashBuf_eq m2 n1 p1 h2n h2p]
    exact ⟨hb, by simp [resourceEtcdKeysHash, hb]⟩
  · intro hd1 hd2 hb
    rw [hashBuf_eq m1 n1 p1 h1n h1p, hashBuf_eq m2 n2 p2 h2n h2p] at hb
    have hdata : n1.data ++ '-' :: (p1.data ++ ['-']) = n2.data ++ '-' :: (p2.data ++ ['-']) := by
      have := congrArg String.data (Option.some.inj hb)
      simpa [String.data_append] using this
    obtain ⟨e1, e2⟩ := append_sep_inj '-' _ _ _ _ hd1 hd2 hdata
    exact ⟨String.ext e1, String.ext (List.append_cancel_right e2)⟩

/-- Witness of C10 as amended: the entries `a` at `/x` with different values. -/
theorem hash_identity_of_dash_free_names_witness :
    resourceEtcdKeysHashBuf (mkEntry "a" "/x" "1" "" false) = some (("a" ++ "-") ++ ("/x" ++ "-")) ∧
    ("a" = "a" ∧ "/x" = "/x") :=
  have h := hash_identity_of_dash_free_names
    [("name", .str "a"), ("path", .str "/x"), ("value", .str "1"),
      ("default", .str ""), ("delete", .bool false)]
    [("name", .str "a"), ("path", .str "/x"), ("value", .str "2"),
      ("default", .str "d"), ("delete", .bool true)]
    "a" "/x" "a" "/x" (by rfl) (by rfl) (by rfl) (by rfl)
  ⟨h.1, h.2.2.2 (by decide) (by decide) (by rfl)⟩

/-- C10, the claim as stated fails: the entries (`a-`, `b`) and (`a`, `-b`) differ in
name and in path, and `resourceEtcdKeysHash` builds the same string `a--b-` for both,
hence the same hash. -/
theorem hash_identity_collision :
    nameOf exDashA = some "a-" ∧ pathOf exDashA = some "b" ∧
    nameOf exDashB = some "a" ∧ pathOf exDashB = some "-b" ∧
    resourceEtcdKeysHashBuf exDashA = some "a--b-" ∧
    resourceEtcdKeysHashBuf exDashB = some "a--b-" ∧
    resourceEtcdKeysHash exDashA = resourceEtcdKeysHash exDashB ∧
    ¬ (resourceEtcdKeysHashBuf exDashA = resourceEtcdKeysHashBuf exDashB ↔
        ("a-" = "a" ∧ "b" = "-b")) := by
  refine ⟨by rfl, by rfl, by rfl, by rfl, by rfl, by rfl, by rfl, ?_⟩
  intro h
  exact absurd (h.1 (by rfl)).1 (by decide)

/-! ### Destroy -/

theorem Store.delete_denied (s : Store) (p : String) : (s.delete p).1.denied = s.denied := by
  unfold Store.delete
  split
  · rfl
  · split <;> rfl

theorem Store.delete_other (s : Store) (p q : String) (h : q ≠ p) :
    (s.delete p).1.nodes q = s.nodes q := by
  unfold Store.delete
  split
  · rfl
  · split
    · rfl
    · rfl
    · simp [h]

theorem Store.delete_absent (s : Store) (p q : String) (h : s.nodes q = none) :
    (s.delete p).1.nodes q = none := by
  unfold Store.delete
  split
  · exact h
  · split
    · exact h
    · exact h
    · by_cases hq : q = p <;> simp [hq, h]

theorem Store.delete_done (s : Store) (p : String)
    (h : ∀ e, (s.delete p).2 = some e → IsKeyNotFound e = true) :
    (s.delete p).1.nodes p = none ∧ s.denied p = false := by
  unfold Store.delete at h ⊢
  split at h
  · simp [IsKeyNotFound] at h
  · rename_i hd
    split at h
    · rename_i hn
      simp [hd, hn]
    · simp [IsKeyNotFound, EcodeNotFile, EcodeKeyNotFound] at h
    · rename_i hn
      simp [hd, hn]

/-- What one pass of the destroy loop does to the store when it goes on. -/
theorem deleteBody_next (w w1 : World) (vars vars1 : Vars) (raw raw1 : Raw)
    (h : deleteBody w vars raw = .next w1 vars1 raw1) :
    w1.store.denied = w.store.denied ∧
    (∀ q, w.store.nodes q = none → w1.store.nodes q = none) ∧
    (∀ q, deletedPath raw ≠ some q → w1.store.nodes q = w.store.nodes q) ∧
    (∀ p, deletedPath raw = some p → w1.store.nodes p = none ∧ w.store.denied p = false) := by
  unfold deleteBody at h
  unfold deletedPath
  cases hp : parseKey raw with
  | error e => simp [hp] at h
  | ok t =>
    obtain ⟨key, path, sub⟩ := t
    simp only [hp] at h ⊢
    by_cases hdel : mapGet sub "delete" = some (.bool true)
    · simp only [hdel, clientDelete] at h ⊢
      have hw1 : w1.store = (w.store.delete path).1 := by
        cases he : (w.store.delete path).2 with
        | none =>
          simp only [he] at h
          cases h
          rfl
        | some e =>
          simp only [he] at h
          split at h
          · cases h
            rfl
          · cases h
      have hdone : ∀ e, (w.store.delete path).2 = some e → IsKeyNotFound e = true := by
        intro e he
        simp only [he] at h
        by_cases hk : IsKeyNotFound e = true
        · exact hk
        · simp [hk] at h
      rw [hw1]
      refine ⟨Store.delete_denied _ _, fun q hq => Store.delete_absent _ _ _ hq, ?_, ?_⟩
      · intro q hq
        exact Store.delete_other _ _ _ (fun e => hq (by rw [e]))
      · intro p hp2
        cases hp2
        exact Store.delete_done _ _ hdone
    · have hw1 : w1 = w := by
        split at h
        · rename_i heq
          exact absurd heq hdel
        · cases h
          rfl
      rw [hw1]
      refine ⟨rfl, fun q hq => hq, fun q _ => rfl, ?_⟩
      intro p hp2
      split at hp2
      · rename_i heq
        exact absurd heq hdel
      · cases hp2

/-- What the destroy loop does to the store when it runs to the end. -/
theorem runLoop_deleteBody_done (ks : List Raw) (w w1 : World) (vars vars1 : Vars)
    (ks1 : List Raw) (h : runLoop deleteBody ks w vars = .done w1 vars1 ks1) :
    w1.store.denied = w.store.denied ∧
    (∀ q, w.store.nodes q = none → w1.store.nodes q = none) ∧
    (∀ q, (∀ r ∈ ks, deletedPath r ≠ some q) → w1.store.nodes q = w.store.nodes q) ∧
    (∀ r ∈ ks, ∀ p, deletedPath r = some p → w1.store.nodes p = none ∧ w.store.denied p = false) := by
  induction ks generalizing w vars vars1 ks1 with
  | nil =>
    simp only [runLoop, Loop.done.injEq] at h
    obtain ⟨rfl, _, _⟩ := h
    exact ⟨rfl, fun q hq => hq, fun q _ => rfl, by simp⟩
  | cons raw rest ih =>
    simp only [runLoop] at h
    cases hb : deleteBody w vars raw with
    | ret w2 err => simp [hb] at h
    | panic w2 => simp [hb] at h
    | next w2 vars2 raw2 =>
      simp only [hb] at h
      cases hl : runLoop deleteBody rest w2 vars2 with
      | ret w3 err => simp [hl] at h
      | panic w3 => simp [hl] at h
      | done w3 vars3 ks3 =>
        simp only [hl, Loop.done.injEq] at h
        obtain ⟨rfl, _, _⟩ := h
        obtain ⟨b1, b2, b3, b4⟩ := deleteBody_next w w2 vars vars2 raw raw2 hb
        obtain ⟨l1, l2, l3, l4⟩ := ih w2 vars2 vars3 ks3 hl
        refine ⟨l1.trans b1, fun q hq => l2 q (b2 q hq), ?_, ?_⟩
        · intro q hq
          rw [l3 q (fun r hr => hq r (List.mem_cons_of_mem _ hr)),
            b3 q (hq raw (List.mem_cons_self _ _))]
        · intro r hr p hp
          rcases List.mem_cons.1 hr with e | hr
          · subst e
            obtain ⟨c1, c2⟩ := b4 p hp
            exact ⟨l2 p c1, c2⟩
          · obtain ⟨c1, c2⟩ := l4 r hr p hp
            exact ⟨c1, by rw [← b1]; exact c2⟩

theorem Store.delete_tolerated (s : Store) (p : String) (hd : s.denied p = false)
    (hn : ∀ v, s.nodes p ≠ some ⟨v, true⟩) :
    ∀ e, (s.delete p).2 = some e → IsKeyNotFound e = true := by
  intro e he
  unfold Store.delete at he
  simp only [hd, Bool.false_eq_true, if_false] at he
  split at he
  · simp only [Option.some.injEq] at he
    rw [← he]
    rfl
  · rename_i v hv
    exact absurd hv (hn v)
  · cases he

theorem Store.delete_dir_inv (s : Store) (p q v : String)
    (h : (s.delete p).1.nodes q = some ⟨v, true⟩) : s.nodes q = some ⟨v, true⟩ := by
  unfold Store.delete at h
  split at h
  · exact h
  · split at h
    · exact h
    · exact h
    · by_cases hq : q = p
      · simp [hq] at h
      · simpa [hq] using h

/-- A delete answered by nil or by key-not-found lets the destroy loop go on. -/
theorem deleteBody_tolerates (w : World) (vars : Vars) (raw : Raw) (key path : String)
    (sub : Sub) (hp : parseKey raw = .ok (key, path, sub))
    (hdel : mapGet sub "delete" = some (.bool true))
    (h : ∀ e, (w.store.delete path).2 = some e → IsKeyNotFound e = true) :
    deleteBody w vars raw
      = .next ⟨(w.store.delete path).1, w.calls ++ [.delete path]⟩ vars raw := by
  unfold deleteBody
  simp only [hp, hdel, clientDelete]
  cases he : (w.store.delete path).2 with
  | none => rfl
  | some e => simp [h e he]

theorem deleteBody_skip (w : World) (vars : Vars) (raw : Raw) (key path : String)
    (sub : Sub) (hp : parseKey raw = .ok (key, path, sub))
    (hdel : mapGet sub "delete" ≠ some (.bool true)) :
    deleteBody w vars raw = .next w vars raw := by
  unfold deleteBody
  simp only [hp]

/-- The destroy loop runs to the end when every entry can be processed. -/
theorem runLoop_deleteBody_succeeds (ks : List Raw) (w : World) (vars : Vars)
    (h : ∀ raw ∈ ks, deletable w.store raw) :
    ∃ w1, runLoop deleteBody ks w vars = .done w1 vars ks := by
  induction ks generalizing w with
  | nil => exact ⟨w, rfl⟩
  | cons raw rest ih =>
    obtain ⟨⟨key, path, sub, hp⟩, hd⟩ := h raw (List.mem_cons_self _ _)
    by_cases hdel : mapGet sub "delete" = some (.bool true)
    · have hdp : deletedPath raw = some path := by simp [deletedPath, hp, hdel]
      obtain ⟨d1, d2⟩ := hd path hdp
      have hb := deleteBody_tolerates w vars raw key path sub hp hdel
        (Store.delete_tolerated _ _ d1 d2)
      obtain ⟨w1, hl⟩ := ih ⟨(w.store.delete path).1, w.calls ++ [.delete path]⟩
        (by
          intro r hr
          obtain ⟨hpr, hdr⟩ := h r (List.mem_cons_of_mem _ hr)
          refine ⟨hpr, fun p hpp => ?_⟩
          obtain ⟨e1, e2⟩ := hdr p hpp
          refine ⟨by simp only [Store.delete_denied]; exact e1, fun v hv => ?_⟩
          exact e2 v (Store.delete_dir_inv _ _ _ _ hv))
      exact ⟨w1, by simp [runLoop, hb, hl]⟩
    · have hb := deleteBody_skip w vars raw key path sub hp hdel
      obtain ⟨w1, hl⟩ := ih w (fun r hr => h r (List.mem_cons_of_mem _ hr))
      exact ⟨w1, by simp [runLoop, hb, hl]⟩

/-- C4, the claim as amended: destroy returns nil, clearing the id, whenever every entry
parses and every path it has to delete is neither failing nor a directory; a delete
answered by key-not-found is tolerated, the loop goes on. On every key set and store on
which destroy returns nil, an entry whose delete flag is true has its path absent from
the store afterwards (a `get` of it reports key-not-found), and an entry whose delete
flag is not true keeps the store content at its path, provided no entry of the set with a
true delete flag has the same path. -/
theorem destroy_removes_flagged_paths_only (d : ResourceData) (w : World) :
    ((∀ raw ∈ d.key, deletable w.store raw) →
      (resourceEtcdKeysDelete d w).status = .returned none ∧
      (resourceEtcdKeysDelete d w).d.id = "") ∧
    (∀ (vars : Vars) (raw : Raw) (key path : String) (sub : Sub) (e : GoError),
      parseKey raw = .ok (key, path, sub) → mapGet sub "delete" = some (.bool true) →
      (w.store.delete path).2 = some e → IsKeyNotFound e = true →
      deleteBody w vars raw
        = .next ⟨(w.store.delete path).1, w.calls ++ [.delete path]⟩ vars raw) ∧
    ((resourceEtcdKeysDelete d w).status = .returned none →
      ∀ raw ∈ d.key, ∀ (key path : String) (sub : Sub), parseKey raw = .ok (key, path, sub) →
        (mapGet sub "delete" = some (.bool true) →
          (resourceEtcdKeysDelete d w).world.store.nodes path = none ∧
          (resourceEtcdKeysDelete d w).world.store.get path
            = (none, some (.etcd ⟨EcodeKeyNotFound, "Key not found", path, 0⟩))) ∧
        (mapGet sub "delete" ≠ some (.bool true) →
          (∀ r ∈ d.key, deletedPath r ≠ some path) →
          (resourceEtcdKeysDelete d w).world.store.nodes path = w.store.nodes path ∧
          (resourceEtcdKeysDelete d w).world.store.get path = w.store.get path)) := by
  refine ⟨?_, ?_, ?_⟩
  · intro h
    obtain ⟨w1, hl⟩ := runLoop_deleteBody_succeeds d.key w [] h
    simp [resourceEtcdKeysDelete, hl]
  · intro vars raw key path sub e hp hdel he hk
    apply deleteBody_tolerates w vars raw key path sub hp hdel
    intro e2 he2
    rw [he] at he2
    cases he2
    exact hk
  · intro hok raw hraw key path sub hp
    unfold resourceEtcdKeysDelete at hok ⊢
    cases hl : runLoop deleteBody d.key w [] with
    | ret w1 err => simp [hl] at hok
    | panic w1 => simp [hl] at hok
    | done w1 vars1 ks1 =>
      simp only [hl]
      obtain ⟨l1, _, l3, l4⟩ := runLoop_deleteBody_done d.key w w1 [] vars1 ks1 hl
      constructor
      · intro hdel
        have hdp : deletedPath raw = some path := by simp [deletedPath, hp, hdel]
        obtain ⟨c1, c2⟩ := l4 raw hraw path hdp
        refine ⟨c1, ?_⟩
        simp [Store.get, l1, c1, c2]
      · intro _ hfree
        have hn := l3 path hfree
        refine ⟨hn, ?_⟩
        simp [Store.get, l1, hn]

/-- Witness of C4 as amended: the entry `a` keeps `/x`, the entry `b` deletes `/gone`,
which the store (`/x = 1`) does not hold. -/
theorem destroy_removes_flagged_paths_only_witness :
    ((resourceEtcdKeysDelete ⟨"etcd", [exKeepEntry, exGoneEntry], []⟩ exXWorld).status
        = .returned none ∧
      (resourceEtcdKeysDelete ⟨"etcd", [exKeepEntry, exGoneEntry], []⟩ exXWorld).d.id = "") ∧
    deleteBody exXWorld [] exGoneEntry
      = .next ⟨(exXWorld.store.delete "/gone").1, exXWorld.calls ++ [.delete "/gone"]⟩ []
          exGoneEntry ∧
    (resourceEtcdKeysDelete ⟨"etcd", [exKeepEntry, exGoneEntry], []⟩ exXWorld).world.store.nodes
      "/gone" = none ∧
    (resourceEtcdKeysDelete ⟨"etcd", [exKeepEntry, exGoneEntry], []⟩ exXWorld).world.store.nodes
      "/x" = exXWorld.store.nodes "/x" :=
  have h := destroy_removes_flagged_paths_only ⟨"etcd", [exKeepEntry, exGoneEntry], []⟩ exXWorld
  have hkeep : deletedPath exKeepEntry = none := by rfl
  have hgone : deletedPath exGoneEntry = some "/gone" := by rfl
  have hall : ∀ raw ∈ [exKeepEntry, exGoneEntry], deletable exXWorld.store raw := by
    intro raw hr
    rcases List.mem_cons.1 hr with e | hr
    · rw [e]
      exact ⟨⟨_, _, _, rfl⟩, fun p hp => by rw [hkeep] at hp; cases hp⟩
    · rw [List.mem_singleton.1 hr]
      refine ⟨⟨_, _, _, rfl⟩, fun p hp => ?_⟩
      rw [hgone] at hp
      cases hp
      exact ⟨rfl, fun v hv => by cases hv⟩
  have hok := (h.1 hall).1
  ⟨h.1 hall,
    h.2.1 [] exGoneEntry "b" "/gone"
      [("name", .str "b"), ("path", .str "/gone"), ("value", .str ""),
        ("default", .str ""), ("delete", .bool true)]
      (.etcd ⟨EcodeKeyNotFound, "Key not found", "/gone", 0⟩) (by rfl) (by rfl) (by rfl) (by rfl),
    ((h.2.2 hok exGoneEntry (by simp) "b" "/gone"
      [("name", .str "b"), ("path", .str "/gone"), ("value", .str ""),
        ("default", .str ""), ("delete", .bool true)] (by rfl)).1 (by rfl)).1,
    ((h.2.2 hok exKeepEntry (by simp) "a" "/x"
      [("name", .str "a"), ("path", .str "/x"), ("value", .str ""),
        ("default", .str ""), ("delete", .bool false)] (by rfl)).2 (by decide)
      (by
        intro r hr
        rcases List.mem_cons.1 hr with e | hr
        · rw [e, hkeep]
          exact fun e => by cases e
        · rw [List.mem_singleton.1 hr, hgone]
          decide)).1⟩

/-- C4, the claim as stated fails: with the entries `a` (delete false) and `b` (delete
true) both on `/x`, and `/x = 1` in the store, destroy returns nil in either processing
order and `/x` is gone, although the entry `a` has a false delete flag. -/
theorem destroy_drops_path_of_kept_entry :
    (resourceEtcdKeysDelete ⟨"etcd", [exKeepEntry, exDropEntry], []⟩ exXWorld).status
        = .returned none ∧
      (resourceEtcdKeysDelete ⟨"etcd", [exDropEntry, exKeepEntry], []⟩ exXWorld).status
        = .returned none ∧
      exXWorld.store.nodes "/x" = some ⟨"1", false⟩ ∧
      (resourceEtcdKeysDelete ⟨"etcd", [exKeepEntry, exDropEntry], []⟩ exXWorld).world.store.nodes
        "/x" = none ∧
      (resourceEtcdKeysDelete ⟨"etcd", [exDropEntry, exKeepEntry], []⟩ exXWorld).world.store.nodes
        "/x" = none := by
  refine ⟨by rfl, by rfl, by rfl, by rfl, by rfl⟩

/-! ### Apply -/

theorem parseKey_ok_eq (raw : Raw) (key path : String) (sub : Sub)
    (h : parseKey raw = .ok (key, path, sub)) : raw = .map sub := by
  unfold parseKey at h
  cases raw with
  | other v => simp at h
  | map m =>
    simp only at h
    split at h
    · split at h
      · simp only [Except.ok.injEq, Prod.mk.injEq] at h
        rw [h.2.2]
      · cases h
    · cases h

/-- How a pass of the apply loop that goes on has gone: the write branch or the read
branch. -/
theorem createBody_next_inv (w w1 : World) (vars vars1 : Vars) (raw raw1 : Raw)
    (h : createBody w vars raw = .next w1 vars1 raw1) :
    ∃ key path sub value, parseKey raw = .ok (key, path, sub) ∧
      mapGet sub "value" = some (.str value) ∧
      ((value ≠ "" ∧ (w.store.set path value).2 = none ∧
          w1 = ⟨(w.store.set path value).1, w.calls ++ [.set path value]⟩ ∧
          vars1 = mapSet vars key value ∧ raw1 = .map (mapSet sub "value" (.str value))) ∨
        (value = "" ∧ fatalGet (w.store.get path).2 = none ∧
          ∃ rv, attributeValue sub key (w.store.get path).1 = .ret (rv, none) ∧
            w1 = ⟨w.store, w.calls ++ [.get path]⟩ ∧
            vars1 = mapSet vars key rv ∧ raw1 = .map sub)) := by
  unfold createBody at h
  cases hp : parseKey raw with
  | error e => simp [hp] at h
  | ok t =>
    obtain ⟨key, path, sub⟩ := t
    simp only [hp] at h
    cases hv : mapGet sub "value" with
    | none => simp [hv] at h
    | some iv =>
      cases iv with
      | bool b => simp [hv] at h
      | int n => simp [hv] at h
      | str value =>
        refine ⟨key, path, sub, value, rfl, hv, ?_⟩
        simp only [hv] at h
        by_cases hne : value = ""
        · right
          simp only [hne, ne_eq, not_true_eq_false, if_false, clientGet] at h
          cases hf : fatalGet (w.store.get path).2 with
          | some e => simp [hf] at h
          | none =>
            simp only [hf] at h
            cases ha : attributeValue sub key (w.store.get path).1 with
            | panic => simp [hne, ha] at h
            | ret a =>
              obtain ⟨rv, oe⟩ := a
              cases oe with
              | some e => simp [hne, ha] at h
              | none =>
                simp only [hne, ha, Step.next.injEq] at h
                obtain ⟨h1, h2, h3⟩ := h
                exact ⟨hne, rfl, rv, rfl, h1.symm, h2.symm, h3.symm⟩
        · left
          simp only [ne_eq, hne, not_false_eq_true, if_true, clientSet] at h
          cases he : (w.store.set path value).2 with
          | some e => simp [he] at h
          | none =>
            simp only [he, Step.next.injEq] at h
            obtain ⟨h1, h2, h3⟩ := h
            exact ⟨hne, rfl, h1.symm, h2.symm, h3.symm⟩

theorem createBody_write_ok (w : World) (vars : Vars) (raw : Raw) (key path value : String)
    (sub : Sub) (hp : parseKey raw = .ok (key, path, sub))
    (hv : mapGet sub "value" = some (.str value)) (hne : value ≠ "")
    (hset : (w.store.set path value).2 = none) :
    createBody w vars raw
      = .next ⟨(w.store.set path value).1, w.calls ++ [.set path value]⟩ (mapSet vars key value)
          (.map (mapSet sub "value" (.str value))) := by
  simp [createBody, hp, hv, hne, clientSet, hset]

theorem createBody_read_ok (w : World) (vars : Vars) (raw : Raw) (key path rv : String)
    (sub : Sub) (hp : parseKey raw = .ok (key, path, sub))
    (hv : mapGet sub "value" = some (.str ""))
    (hf : fatalGet (w.store.get path).2 = none)
    (ha : attributeValue sub key (w.store.get path).1 = .ret (rv, none)) :
    createBody w vars raw
      = .next ⟨w.store, w.calls ++ [.get path]⟩ (mapSet vars key rv) (.map sub) := by
  simp [createBody, hp, hv, clientGet, hf, ha]

theorem Store.set_denied (s : Store) (p v : String) : (s.set p v).1.denied = s.denied := by
  unfold Store.set
  split
  · rfl
  · split <;> rfl

theorem Store.set_other (s : Store) (p v q : String) (h : q ≠ p) :
    (s.set p v).1.nodes q = s.nodes q := by
  unfold Store.set
  split
  · rfl
  · split
    · rfl
    · simp [h]

theorem Store.set_done (s : Store) (p v : String) (h : (s.set p v).2 = none) :
    (s.set p v).1.nodes p = some ⟨v, false⟩ ∧ s.denied p = false := by
  unfold Store.set at h ⊢
  split at h
  · cases h
  · rename_i hd
    split at h
    · cases h
    · simp [hd]

theorem Store.set_leaf_stays (s : Store) (p v q v0 : String)
    (h : s.nodes q = some ⟨v0, false⟩) : ∃ v1, (s.set p v).1.nodes q = some ⟨v1, false⟩ := by
  unfold Store.set
  split
  · exact ⟨v0, h⟩
  · split
    · exact ⟨v0, h⟩
    · by_cases hq : q = p
      · exact ⟨v, by simp [hq]⟩
      · exact ⟨v0, by simp [hq, h]⟩

theorem Store.set_on_leaf (s : Store) (p v v0 : String) (hd : s.denied p = false)
    (hl : s.nodes p = some ⟨v0, false⟩) : (s.set p v).2 = none := by
  simp [Store.set, hd, hl]

/-- What one pass of the apply loop does to the store, the variables and the entry when it
goes on. -/
theorem createBody_next_frame (w w1 : World) (vars vars1 : Vars) (raw raw1 : Raw)
    (h : createBody w vars raw = .next w1 vars1 raw1) :
    w1.store.denied = w.store.denied ∧
    (∀ q, writerOf raw ≠ some q → w1.store.nodes q = w.store.nodes q) ∧
    (∀ q v, w.store.nodes q = some ⟨v, false⟩ → ∃ v1, w1.store.nodes q = some ⟨v1, false⟩) ∧
    (∀ p, writerOf raw = some p → ∃ v, w1.store.nodes p = some ⟨v, false⟩) ∧
    (∀ k, nameOf raw ≠ some k → mapGet vars1 k = mapGet vars k) ∧
    raw1 = raw := by
  obtain ⟨key, path, sub, value, hp, hv, hbr⟩ := createBody_next_inv w w1 vars vars1 raw raw1 h
  have hraw := parseKey_ok_eq raw key path sub hp
  have hname : nameOf raw = some key := by simp [nameOf, hp]
  rcases hbr with ⟨hne, hset, rfl, rfl, rfl⟩ | ⟨he, _, rv, _, rfl, rfl, rfl⟩
  · have hwr : writerOf raw = some path := by simp [writerOf, hp, hv, hne]
    refine ⟨Store.set_denied _ _ _, ?_, ?_, ?_, ?_, ?_⟩
    · intro q hq
      exact Store.set_other _ _ _ _ (fun e => hq (by rw [hwr, e]))
    · intro q v hq
      exact Store.set_leaf_stays _ _ _ _ _ hq
    · intro p hp2
      rw [hwr] at hp2
      cases hp2
      exact ⟨value, (Store.set_done _ _ _ hset).1⟩
    · intro k hk
      exact mapGet_mapSet_other _ _ _ _ (fun e => hk (by rw [hname, e]))
    · rw [hraw, mapSet_eq_self _ _ _ hv]
  · have hwr : writerOf raw = none := by simp [writerOf, hp, hv, he]
    refine ⟨rfl, fun q _ => rfl, fun q v hq => ⟨v, hq⟩, ?_, ?_, hraw.symm⟩
    · intro p hp2
      rw [hwr] at hp2
      cases hp2
    · intro k hk
      exact mapGet_mapSet_other _ _ _ _ (fun e => hk (by rw [hname, e]))

theorem runLoop_done_cons (body : World → Vars → Raw → Step) (raw : Raw) (rest : List Raw)
    (w wf : World) (vars vf : Vars) (kf : List Raw)
    (h : runLoop body (raw :: rest) w vars = .done wf vf kf) :
    ∃ w1 vars1 raw1 ks1, body w vars raw = .next w1 vars1 raw1 ∧
      runLoop body rest w1 vars1 = .done wf vf ks1 ∧ kf = raw1 :: ks1 := by
  simp only [runLoop] at h
  cases hb : body w vars raw with
  | ret w2 err => simp [hb] at h
  | panic w2 => simp [hb] at h
  | next w2 vars2 raw2 =>
    simp only [hb] at h
    cases hl : runLoop body rest w2 vars2 with
    | ret w3 err => simp [hl] at h
    | panic w3 => simp [hl] at h
    | done w3 vars3 ks3 =>
      simp only [hl, Loop.done.injEq] at h
      obtain ⟨rfl, rfl, rfl⟩ := h
      exact ⟨w2, vars2, raw2, ks3, rfl, hl, rfl⟩

theorem runLoop_done_split (body : World → Vars → Raw → Step) (pre post : List Raw) (raw : Raw)
    (w wf : World) (vars vf : Vars) (kf : List Raw)
    (h : runLoop body (pre ++ raw :: post) w vars = .done wf vf kf) :
    ∃ w1 vars1 ks1 w2 vars2 raw2 ks3, runLoop body pre w vars = .done w1 vars1 ks1 ∧
      body w1 vars1 raw = .next w2 vars2 raw2 ∧
      runLoop body post w2 vars2 = .done wf vf ks3 ∧ kf = ks1 ++ raw2 :: ks3 := by
  rw [runLoop_append] at h
  cases hpre : runLoop body pre w vars with
  | ret w1 err => simp [hpre] at h
  | panic w1 => simp [hpre] at h
  | done w1 vars1 ks1 =>
    simp only [hpre] at h
    cases hrest : runLoop body (raw :: post) w1 vars1 with
    | ret w2 err => simp [hrest] at h
    | panic w2 => simp [hrest] at h
    | done w2 vars2 ks2 =>
      simp only [hrest, Loop.done.injEq] at h
      obtain ⟨rfl, rfl, rfl⟩ := h
      obtain ⟨w3, vars3, raw3, ks3, hb, hl, rfl⟩ :=
        runLoop_done_cons body raw post w1 w2 vars1 vars2 ks2 hrest
      exact ⟨w1, vars1, ks1, w3, vars3, raw3, ks3, rfl, hb, hl, rfl⟩

theorem runLoop_done_length (body : World → Vars → Raw → Step) (ks : List Raw)
    (w wf : World) (vars vf : Vars) (kf : List Raw)
    (h : runLoop body ks w vars = .done wf vf kf) : kf.length = ks.length := by
  induction ks generalizing w vars kf with
  | nil =>
    simp only [runLoop, Loop.done.injEq] at h
    rw [← h.2.2]
  | cons raw rest ih =>
    obtain ⟨w1, vars1, raw1, ks1, _, hl, rfl⟩ := runLoop_done_cons body raw rest w wf vars vf kf h
    simp [ih w1 vars1 ks1 hl]

/-- What the apply loop does to the store, the variables and the entries when it runs to
the end. -/
theorem runLoop_createBody_frame (ks : List Raw) (w wf : World) (vars vf : Vars)
    (kf : List Raw) (h : runLoop createBody ks w vars = .done wf vf kf) :
    wf.store.denied = w.store.denied ∧
    (∀ q, (∀ r ∈ ks, writerOf r ≠ some q) → wf.store.nodes q = w.store.nodes q) ∧
    (∀ q v, w.store.nodes q = some ⟨v, false⟩ → ∃ v1, wf.store.nodes q = some ⟨v1, false⟩) ∧
    (∀ r ∈ ks, ∀ p, writerOf r = some p → ∃ v, wf.store.nodes p = some ⟨v, false⟩) ∧
    (∀ k, (∀ r ∈ ks, nameOf r ≠ some k) → mapGet vf k = mapGet vars k) ∧
    kf = ks := by
  induction ks generalizing w vars kf with
  | nil =>
    simp only [runLoop, Loop.done.injEq] at h
    obtain ⟨rfl, rfl, rfl⟩ := h
    exact ⟨rfl, fun q _ => rfl, fun q v hq => ⟨v, hq⟩, by simp, fun k _ => rfl, rfl⟩
  | cons raw rest ih =>
    obtain ⟨w1, vars1, raw1, ks1, hb, hl, rfl⟩ :=
      runLoop_done_cons createBody raw rest w wf vars vf kf h
    obtain ⟨b1, b2, b3, b4, b5, b6⟩ := createBody_next_frame w w1 vars vars1 raw raw1 hb
    obtain ⟨l1, l2, l3, l4, l5, l6⟩ := ih w1 vars1 ks1 hl
    refine ⟨l1.trans b1, ?_, ?_, ?_, ?_, by rw [b6, l6]⟩
    · intro q hq
      rw [l2 q (fun r hr => hq r (List.mem_cons_of_mem _ hr)),
        b2 q (hq raw (List.mem_cons_self _ _))]
    · intro q v hq
      obtain ⟨v1, h1⟩ := b3 q v hq
      exact l3 q v1 h1
    · intro r hr p hp
      rcases List.mem_cons.1 hr with e | hr
      · subst e
        obtain ⟨v1, h1⟩ := b4 p hp
        exact l3 p v1 h1
      · exact l4 r hr p hp
    · intro k hk
      rw [l5 k (fun r hr => hk r (List.mem_cons_of_mem _ hr)),
        b5 k (hk raw (List.mem_cons_self _ _))]

theorem Store.ext_fields (s1 s2 : Store) (hn : ∀ p, s1.nodes p = s2.nodes p)
    (hd : s1.denied = s2.denied) : s1 = s2 := by
  cases s1
  cases s2
  simp only [Store.mk.injEq]
  exact ⟨funext hn, hd⟩

theorem Store.get_congr (s1 s2 : Store) (p : String) (hd : s1.denied = s2.denied)
    (hn : s1.nodes p = s2.nodes p) : s1.get p = s2.get p := by
  simp [Store.get, hd, hn]

/-- Apply run again from a store that agrees with the first store outside the written
paths, and holds leaves on the written paths, goes the same way. -/
theorem create_rerun (ks : List Raw) (wa wb wa1 : World) (vars vars1 : Vars) (ks1 : List Raw)
    (hden : wb.store.denied = wa.store.denied)
    (hsame : ∀ p, (∀ r ∈ ks, writerOf r ≠ some p) → wb.store.nodes p = wa.store.nodes p)
    (hleaf : ∀ r ∈ ks, ∀ p, writerOf r = some p → ∃ v, wb.store.nodes p = some ⟨v, false⟩)
    (hord : noReadBeforeWrite ks)
    (hrun : runLoop createBody ks wa vars = .done wa1 vars1 ks1) :
    ∃ wb1, runLoop createBody ks wb vars = .done wb1 vars1 ks1 ∧ wb1.store = wa1.store := by
  induction ks generalizing wa wb vars ks1 with
  | nil =>
    simp only [runLoop, Loop.done.injEq] at hrun
    obtain ⟨rfl, rfl, rfl⟩ := hrun
    exact ⟨wb, rfl, Store.ext_fields _ _ (fun p => hsame p (by simp)) hden⟩
  | cons raw rest ih =>
    obtain ⟨wa2, vars2, raw2, ks3, hb, hl, rfl⟩ :=
      runLoop_done_cons createBody raw rest wa wa1 vars vars1 ks1 hrun
    obtain ⟨key, path, sub, value, hp, hv, hbr⟩ :=
      createBody_next_inv wa wa2 vars vars2 raw raw2 hb
    have hord2 := (List.pairwise_cons.1 hord).2
    rcases hbr with ⟨hne, hset, rfl, rfl, rfl⟩ | ⟨he, hf, rv, ha, rfl, rfl, rfl⟩
    · have hwr : writerOf raw = some path := by simp [writerOf, hp, hv, hne]
      obtain ⟨v0, hv0⟩ := hleaf raw (List.mem_cons_self _ _) path hwr
      have hdb : wb.store.denied path = false := by
        rw [hden]
        exact (Store.set_done _ _ _ hset).2
      have hsetb := Store.set_on_leaf wb.store path value v0 hdb hv0
      have hbb := createBody_write_ok wb vars raw key path value sub hp hv hne hsetb
      obtain ⟨wb1, hlb, hst⟩ := ih
        ⟨(wa.store.set path value).1, wa.calls ++ [.set path value]⟩
        ⟨(wb.store.set path value).1, wb.calls ++ [.set path value]⟩
        (mapSet vars key value) ks3
        (by simp only [Store.set_denied]; exact hden)
        (by
          intro p hfree
          by_cases hpp : p = path
          · subst hpp
            show (wb.store.set p value).1.nodes p = (wa.store.set p value).1.nodes p
            rw [(Store.set_done _ _ _ hsetb).1, (Store.set_done _ _ _ hset).1]
          · show (wb.store.set path value).1.nodes p = (wa.store.set path value).1.nodes p
            rw [Store.set_other _ _ _ _ hpp, Store.set_other _ _ _ _ hpp]
            apply hsame p
            intro r hr
            rcases List.mem_cons.1 hr with e | hr
            · subst e
              rw [hwr]
              exact fun e => hpp (Option.some.inj e).symm
            · exact hfree r hr)
        (by
          intro r hr p hw
          obtain ⟨v, hvp⟩ := hleaf r (List.mem_cons_of_mem _ hr) p hw
          exact Store.set_leaf_stays _ _ _ _ _ hvp)
        hord2 hl
      exact ⟨wb1, by simp [runLoop, hbb, hlb], hst⟩
    · subst he
      have hrd : readerOf raw = some path := by simp [readerOf, hp, hv]
      have hwr : writerOf raw = none := by simp [writerOf, hp, hv]
      have hn : wb.store.nodes path = wa.store.nodes path := by
        apply hsame path
        intro r hr
        rcases List.mem_cons.1 hr with e | hr
        · subst e
          rw [hwr]
          exact fun e => by cases e
        · exact (List.pairwise_cons.1 hord).1 r hr path hrd
      have hget := Store.get_congr wb.store wa.store path hden hn
      have hbb := createBody_read_ok wb vars raw key path rv sub hp hv
        (by rw [hget]; exact hf) (by rw [hget]; exact ha)
      obtain ⟨wb1, hlb, hst⟩ := ih
        ⟨wa.store, wa.calls ++ [.get path]⟩ ⟨wb.store, wb.calls ++ [.get path]⟩
        (mapSet vars key rv) ks3 hden
        (by
          intro p hfree
          apply hsame p
          intro r hr
          rcases List.mem_cons.1 hr with e | hr
          · subst e
            rw [hwr]
            exact fun e => by cases e
          · exact hfree r hr)
        (fun r hr p hw => hleaf r (List.mem_cons_of_mem _ hr) p hw)
        hord2 hl
      exact ⟨wb1, by simp [runLoop, hbb, hlb], hst⟩

/-- C1, the claim as amended: when apply returns nil, an entry with a non-empty value is
persisted, at its place in the key list, with its value field equal to the literal
value; `var[name]` is the literal value provided no entry processed after it has the
same name; and a `get` of its path on the store left by apply returns the literal value
provided no entry processed after it writes the same path. -/
theorem written_value_resolved_and_stored (d : ResourceData) (w : World)
    (pre post : List Raw) (raw : Raw) (key path value : String) (sub : Sub)
    (hkeys : d.key = pre ++ raw :: post)
    (hp : parseKey raw = .ok (key, path, sub))
    (hv : mapGet sub "value" = some (.str value)) (hne : value ≠ "")
    (hok : (resourceEtcdKeysCreate d w).status = .returned none) :
    (∃ sub1, (resourceEtcdKeysCreate d w).d.key[pre.length]? = some (.map sub1) ∧
      mapGet sub1 "value" = some (.str value)) ∧
    ((∀ r ∈ post, nameOf r ≠ some key) →
      mapGet (resourceEtcdKeysCreate d w).d.var key = some value) ∧
    ((∀ r ∈ post, writerOf r ≠ some path) →
      (resourceEtcdKeysCreate d w).world.store.get path
        = (some ⟨some ⟨value, false⟩⟩, none)) := by
  unfold resourceEtcdKeysCreate at hok ⊢
  cases hl : runLoop createBody d.key w [] with
  | ret w1 err => simp [hl] at hok
  | panic w1 => simp [hl] at hok
  | done wf vf kf =>
    simp only [hl]
    have hkf := (runLoop_createBody_frame d.key w wf [] vf kf hl).2.2.2.2.2
    rw [hkeys] at hl
    obtain ⟨w1, vars1, ks1, w2, vars2, raw2, ks3, _, hb, hpost, _⟩ :=
      runLoop_done_split createBody pre post raw w wf [] vf kf hl
    obtain ⟨key2, path2, sub2, value2, hp2, hv2, hbr⟩ :=
      createBody_next_inv w1 w2 vars1 vars2 raw raw2 hb
    rw [hp] at hp2
    simp only [Except.ok.injEq, Prod.mk.injEq] at hp2
    obtain ⟨rfl, rfl, rfl⟩ := hp2
    rw [hv] at hv2
    simp only [Option.some.injEq, Iface.str.injEq] at hv2
    subst hv2
    rcases hbr with ⟨_, hset, rfl, rfl, rfl⟩ | ⟨he, _⟩
    · obtain ⟨f1, f2, _, _, f5, _⟩ :=
        runLoop_createBody_frame post _ wf _ vf ks3 hpost
      refine ⟨⟨sub, ?_, hv⟩, ?_, ?_⟩
      · rw [hkf, hkeys, parseKey_ok_eq raw key path sub hp]
        rw [List.getElem?_append_right (le_refl _)]
        simp
      · intro hfree
        rw [f5 key hfree]
        exact mapGet_mapSet_same _ _ _
      · intro hfree
        have hn := f2 path hfree
        obtain ⟨s1, s2⟩ := Store.set_done _ _ _ hset
        have hd : wf.store.denied path = false := by
          rw [f1]
          simp only [Store.set_denied]
          exact s2
        simp only [s1] at hn
        simp [Store.get, hd, hn]
    · exact absurd he hne

/-- Witness of C1 as amended: the entry `a` writing `1` to `/x`, on the empty store. -/
theorem written_value_resolved_and_stored_witness :
    (∃ sub1, (resourceEtcdKeysCreate ⟨"", [exWriteOne], []⟩ ⟨emptyStore, []⟩).d.key[0]?
        = some (.map sub1) ∧ mapGet sub1 "value" = some (.str "1")) ∧
    mapGet (resourceEtcdKeysCreate ⟨"", [exWriteOne], []⟩ ⟨emptyStore, []⟩).d.var "a"
      = some "1" ∧
    (resourceEtcdKeysCreate ⟨"", [exWriteOne], []⟩ ⟨emptyStore, []⟩).world.store.get "/x"
      = (some ⟨some ⟨"1", false⟩⟩, none) :=
  have h := written_value_resolved_and_stored ⟨"", [exWriteOne], []⟩ ⟨emptyStore, []⟩
    [] [] exWriteOne "a" "/x" "1"
    [("name", .str "a"), ("path", .str "/x"), ("value", .str "1"),
      ("default", .str ""), ("delete", .bool false)]
    (by rfl) (by rfl) (by rfl) (by decide) (by rfl)
  ⟨h.1, h.2.1 (by simp), h.2.2 (by simp)⟩

/-- C1, the claim as stated fails: with the entries `a` (value `1`) and `b` (value `2`)
both on `/x`, apply on the empty store returns nil in either processing order, and the
`get` of `/x` on the store it leaves returns the value of the entry processed last, not
the literal value of the other entry. -/
theorem later_write_overrides_earlier :
    (resourceEtcdKeysCreate ⟨"", [exWriteOne, exWriteTwo], []⟩ ⟨emptyStore, []⟩).status
      = .returned none ∧
    (resourceEtcdKeysCreate ⟨"", [exWriteOne, exWriteTwo], []⟩ ⟨emptyStore, []⟩).world.store.get
      "/x" = (some ⟨some ⟨"2", false⟩⟩, none) ∧
    (resourceEtcdKeysCreate ⟨"", [exWriteTwo, exWriteOne], []⟩ ⟨emptyStore, []⟩).status
      = .returned none ∧
    (resourceEtcdKeysCreate ⟨"", [exWriteTwo, exWriteOne], []⟩ ⟨emptyStore, []⟩).world.store.get
      "/x" = (some ⟨some ⟨"1", false⟩⟩, none) ∧
    writerOf exWriteOne = some "/x" ∧ writerOf exWriteTwo = some "/x" := by
  refine ⟨by rfl, by rfl, by rfl, by rfl, by rfl, by rfl⟩

/-- C5, the claim as amended: for a key set in which no entry with empty value is
processed before an entry with non-empty value on the same path, and a store on which
apply returns nil, apply persists the key list it was given, and applying the same key
set again to the store left by the first apply returns nil, yields the same resource data
(the same `var` map and key list) and leaves the store equal to the store left by the
first apply. -/
theorem apply_twice_same_result (d : ResourceData) (w : World)
    (hord : noReadBeforeWrite d.key)
    (hok : (resourceEtcdKeysCreate d w).status = .returned none) :
    (resourceEtcdKeysCreate d w).d.key = d.key ∧
    (resourceEtcdKeysCreate d (resourceEtcdKeysCreate d w).world).status = .returned none ∧
    (resourceEtcdKeysCreate d (resourceEtcdKeysCreate d w).world).d
      = (resourceEtcdKeysCreate d w).d ∧
    (resourceEtcdKeysCreate d (resourceEtcdKeysCreate d w).world).world.store
      = (resourceEtcdKeysCreate d w).world.store := by
  have hrun : ∃ wf vf kf, runLoop createBody d.key w [] = .done wf vf kf := by
    unfold resourceEtcdKeysCreate at hok
    cases hl : runLoop createBody d.key w [] with
    | ret w1 err => simp [hl] at hok
    | panic w1 => simp [hl] at hok
    | done wf vf kf => exact ⟨wf, vf, kf, rfl⟩
  obtain ⟨wf, vf, kf, hl⟩ := hrun
  obtain ⟨f1, f2, _, f4, _, f6⟩ := runLoop_createBody_frame d.key w wf [] vf kf hl
  obtain ⟨wb1, hlb, hst⟩ := create_rerun d.key w wf wf [] vf kf f1 f2 f4 hord hl
  have h1 : resourceEtcdKeysCreate d w = ⟨wf, ⟨"etcd", kf, vf⟩, .returned none⟩ := by
    simp [resourceEtcdKeysCreate, hl]
  have h2 : resourceEtcdKeysCreate d wf = ⟨wb1, ⟨"etcd", kf, vf⟩, .returned none⟩ := by
    simp [resourceEtcdKeysCreate, hlb]
  have h3 : (resourceEtcdKeysCreate d w).world = wf := by rw [h1]
  rw [h3, h2, h1]
  exact ⟨f6, rfl, rfl, hst⟩

/-- Witness of C5 as amended: the entry `b` writes `/x`, then the entry `b` at `/y` reads
its default. -/
theorem apply_twice_same_result_witness :
    (resourceEtcdKeysCreate ⟨"", [exWriteX, exDefaultEntry], []⟩
      (resourceEtcdKeysCreate ⟨"", [exWriteX, exDefaultEntry], []⟩ ⟨emptyStore, []⟩).world).d
      = (resourceEtcdKeysCreate ⟨"", [exWriteX, exDefaultEntry], []⟩ ⟨emptyStore, []⟩).d ∧
    (resourceEtcdKeysCreate ⟨"", [exWriteX, exDefaultEntry], []⟩
      (resourceEtcdKeysCreate ⟨"", [exWriteX, exDefaultEntry], []⟩
        ⟨emptyStore, []⟩).world).world.store
      = (resourceEtcdKeysCreate ⟨"", [exWriteX, exDefaultEntry], []⟩
        ⟨emptyStore, []⟩).world.store :=
  have hw : writerOf exDefaultEntry = none := by rfl
  have h := apply_twice_same_result ⟨"", [exWriteX, exDefaultEntry], []⟩ ⟨emptyStore, []⟩
    (List.Pairwise.cons
      (fun r hr p _ => by
        rw [List.mem_singleton.1 hr, hw]
        exact fun e => by cases e)
      (List.Pairwise.cons (fun r hr => by cases hr) List.Pairwise.nil))
    (by rfl)
  ⟨h.2.2.1, h.2.2.2⟩

/-- C5, the claim as stated fails: the entry `a` reads `/x` (default `d`) and is processed
before the entry `b` that writes `1` to `/x` (the key list is in the order of the hash
codes). On the empty store the first apply returns nil with `var[a] = d`; the second
apply, on the store the first one left, returns nil with `var[a] = 1`. -/
theorem apply_twice_differs :
    resourceEtcdKeysHash exReadX = some 2701160533 ∧
    resourceEtcdKeysHash exWriteX = some 3869248133 ∧
    (resourceEtcdKeysCreate ⟨"", [exReadX, exWriteX], []⟩ ⟨emptyStore, []⟩).status
      = .returned none ∧
    (resourceEtcdKeysCreate ⟨"", [exReadX, exWriteX], []⟩ ⟨emptyStore, []⟩).d.var
      = [("a", "d"), ("b", "1")] ∧
    (resourceEtcdKeysCreate ⟨"", [exReadX, exWriteX], []⟩
      (resourceEtcdKeysCreate ⟨"", [exReadX, exWriteX], []⟩ ⟨emptyStore, []⟩).world).status
      = .returned none ∧
    (resourceEtcdKeysCreate ⟨"", [exReadX, exWriteX], []⟩
      (resourceEtcdKeysCreate ⟨"", [exReadX, exWriteX], []⟩ ⟨emptyStore, []⟩).world).d.var
      = [("a", "1"), ("b", "1")] := by
  refine ⟨by rfl, by rfl, by rfl, by rfl, by rfl, by rfl⟩

/-! ### Reads, at the level of the operations -/

theorem runLoop_createBody_calls (ks : List Raw) (w wf : World) (vars vf : Vars)
    (kf : List Raw) (h : runLoop createBody ks w vars = .done wf vf kf) :
    ∃ cs, wf.calls = w.calls ++ cs ∧ cs.length = ks.length := by
  induction ks generalizing w vars kf with
  | nil =>
    simp only [runLoop, Loop.done.injEq] at h
    obtain ⟨rfl, _, _⟩ := h
    exact ⟨[], by simp, rfl⟩
  | cons raw rest ih =>
    obtain ⟨w1, vars1, raw1, ks1, hb, hl, _⟩ :=
      runLoop_done_cons createBody raw rest w wf vars vf kf h
    obtain ⟨cs, hc, hn⟩ := ih w1 vars1 ks1 hl
    obtain ⟨key, path, sub, value, _, _, hbr⟩ := createBody_next_inv w w1 vars vars1 raw raw1 hb
    rcases hbr with ⟨_, _, rfl, _, _⟩ | ⟨_, _, rv, _, rfl, _, _⟩
    · exact ⟨.set path value :: cs, by simp [hc], by simp [hn]⟩
    · exact ⟨.get path :: cs, by simp [hc], by simp [hn]⟩

/-- Apply, on an entry it reads: when no entry processed before writes the path, the
`get` is answered as on the initial store; the resolved value is in `var` unless a later
entry has the same name, and the call made for the entry is the `Get`. -/
theorem create_read_at (d : ResourceData) (w : World) (pre post : List Raw) (raw : Raw)
    (key path rv : String) (sub : Sub)
    (hkeys : d.key = pre ++ raw :: post)
    (hp : parseKey raw = .ok (key, path, sub))
    (hv : mapGet sub "value" = some (.str ""))
    (hf : fatalGet (w.store.get path).2 = none)
    (ha : attributeValue sub key (w.store.get path).1 = .ret (rv, none))
    (hpre : ∀ r ∈ pre, writerOf r ≠ some path)
    (hok : (resourceEtcdKeysCreate d w).status = .returned none) :
    ((∀ r ∈ post, nameOf r ≠ some key) →
      mapGet (resourceEtcdKeysCreate d w).d.var key = some rv) ∧
    ∃ cs, (resourceEtcdKeysCreate d w).world.calls = w.calls ++ cs ∧
      cs.length = d.key.length ∧ cs[pre.length]? = some (.get path) := by
  unfold resourceEtcdKeysCreate at hok ⊢
  cases hl : runLoop createBody d.key w [] with
  | ret w1 err => simp [hl] at hok
  | panic w1 => simp [hl] at hok
  | done wf vf kf =>
    simp only [hl]
    rw [hkeys] at hl
    obtain ⟨w1, vars1, ks1, w2, vars2, raw2, ks3, hprerun, hb, hpost, _⟩ :=
      runLoop_done_split createBody pre post raw w wf [] vf kf hl
    obtain ⟨p1, p2, _⟩ := runLoop_createBody_frame pre w w1 [] vars1 ks1 hprerun
    have hget : w1.store.get path = w.store.get path :=
      Store.get_congr _ _ path p1 (p2 path hpre)
    have hb2 := createBody_read_ok w1 vars1 raw key path rv sub hp hv
      (by rw [hget]; exact hf) (by rw [hget]; exact ha)
    rw [hb2] at hb
    simp only [Step.next.injEq] at hb
    obtain ⟨rfl, rfl, rfl⟩ := hb
    obtain ⟨_, _, _, _, f5, _⟩ := runLoop_createBody_frame post _ wf _ vf ks3 hpost
    obtain ⟨c1, hc1, hn1⟩ := runLoop_createBody_calls pre w w1 [] vars1 ks1 hprerun
    obtain ⟨c3, hc3, hn3⟩ := runLoop_createBody_calls post _ wf _ vf ks3 hpost
    refine ⟨?_, c1 ++ .get path :: c3, ?_, ?_, ?_⟩
    · intro hfree
      rw [f5 key hfree]
      exact mapGet_mapSet_same _ _ _
    · rw [hc3]
      simp [hc1]
    · simp [hkeys, hn1, hn3]
    · rw [List.getElem?_append_right (by rw [hn1])]
      simp [hn1]

/-- Apply on a key set made only of entries it reads, each answered by a leaf or by
key-not-found with a default: it runs to the end, the store untouched, with `Get` calls
only, and persists the key list as it was. -/
theorem runLoop_createBody_reads (ks : List Raw) (w : World) (vars : Vars)
    (h : ∀ raw ∈ ks, readsLeaf w.store raw ∨ readsDefault w.store raw) :
    ∃ vars1 gets, runLoop createBody ks w vars = .done ⟨w.store, w.calls ++ gets⟩ vars1 ks ∧
      ∀ c ∈ gets, c.isGet = true := by
  induction ks generalizing w vars with
  | nil => exact ⟨vars, [], by simp [runLoop], by simp⟩
  | cons raw rest ih =>
    have hstep : ∃ key path sub rv, parseKey raw = .ok (key, path, sub) ∧
        createBody w vars raw
          = .next ⟨w.store, w.calls ++ [.get path]⟩ (mapSet vars key rv) (.map sub) := by
      rcases h raw (List.mem_cons_self _ _) with
        ⟨key, path, sub, v, hp, hv, hget⟩ | ⟨key, path, sub, dv, e, hp, hv, hget, he, hdef⟩
      · exact ⟨key, path, sub, v, hp, createBody_read_leaf w vars raw key path v sub hp hv hget⟩
      · exact ⟨key, path, sub, dv, hp,
          createBody_read_default w vars raw key path dv sub e hp hv hget he hdef⟩
    obtain ⟨key, path, sub, rv, hp, hb⟩ := hstep
    obtain ⟨vars1, gets, hl, hg⟩ :=
      ih ⟨w.store, w.calls ++ [.get path]⟩ (mapSet vars key rv)
        (fun r hr => h r (List.mem_cons_of_mem _ hr))
    have hraw := parseKey_ok_eq raw key path sub hp
    rw [← hraw] at hb
    refine ⟨vars1, .get path :: gets, ?_, ?_⟩
    · simp [runLoop, hb, hl]
    · intro c hc
      rcases List.mem_cons.1 hc with h1 | h1
      · subst h1
        rfl
      · exact hg c h1

theorem create_reads_ok (d : ResourceData) (w : World)
    (h : ∀ raw ∈ d.key, readsLeaf w.store raw ∨ readsDefault w.store raw) :
    (resourceEtcdKeysCreate d w).status = .returned none ∧
    (resourceEtcdKeysCreate d w).world.store = w.store ∧
    (resourceEtcdKeysCreate d w).d.key = d.key ∧
    ∃ gets, (resourceEtcdKeysCreate d w).world.calls = w.calls ++ gets ∧
      ∀ c ∈ gets, c.isGet = true := by
  obtain ⟨vars1, gets, hl, hg⟩ := runLoop_createBody_reads d.key w [] h
  have hr : resourceEtcdKeysCreate d w
      = ⟨⟨w.store, w.calls ++ gets⟩, ⟨"etcd", d.key, vars1⟩, .returned none⟩ := by
    simp [resourceEtcdKeysCreate, hl]
  rw [hr]
  exact ⟨rfl, rfl, rfl, gets, rfl, hg⟩

/-- C2, the claim as amended: `attributeValue` on a non-nil response with a non-directory
node returns exactly the node's value and no error, for every entry (hence every
default). For an entry with empty value whose path holds a leaf value in the store apply
starts from: if apply returns nil, no entry processed before it writes that path and no
entry processed after it has the same name, then `var[name]` is the stored string
verbatim. And apply on a key set made only of such entries returns nil and leaves the
store as it was. -/
theorem stored_leaf_value_wins :
    (∀ (sub : Sub) (key v : String),
      attributeValue sub key (some ⟨some ⟨v, false⟩⟩) = .ret (v, none)) ∧
    (∀ (d : ResourceData) (w : World) (pre post : List Raw) (raw : Raw) (key path v : String)
      (sub : Sub), d.key = pre ++ raw :: post → parseKey raw = .ok (key, path, sub) →
      mapGet sub "value" = some (.str "") →
      w.store.get path = (some ⟨some ⟨v, false⟩⟩, none) →
      (∀ r ∈ pre, writerOf r ≠ some path) → (∀ r ∈ post, nameOf r ≠ some key) →
      (resourceEtcdKeysCreate d w).status = .returned none →
      mapGet (resourceEtcdKeysCreate d w).d.var key = some v) ∧
    (∀ (d : ResourceData) (w : World), (∀ raw ∈ d.key, readsLeaf w.store raw) →
      (resourceEtcdKeysCreate d w).status = .returned none ∧
      (resourceEtcdKeysCreate d w).world.store = w.store) := by
  refine ⟨fun sub key v => by simp [attributeValue], ?_, ?_⟩
  · intro d w pre post raw key path v sub hkeys hp hv hget hpre hpost hok
    exact (create_read_at d w pre post raw key path v sub hkeys hp hv
      (by rw [hget]; rfl) (by rw [hget]; simp [attributeValue]) hpre hok).1 hpost
  · intro d w h
    obtain ⟨h1, h2, _⟩ := create_reads_ok d w (fun raw hr => Or.inl (h raw hr))
    exact ⟨h1, h2⟩

/-- Witness of C2 as amended: the entry `b` with default `fallback` reads `/y`, which
holds `remote`. -/
theorem stored_leaf_value_wins_witness :
    mapGet (resourceEtcdKeysCreate ⟨"", [exDefaultEntry], []⟩ exLeafWorld).d.var "b"
      = some "remote" ∧
    (resourceEtcdKeysCreate ⟨"", [exDefaultEntry], []⟩ exLeafWorld).status = .returned none ∧
    (resourceEtcdKeysCreate ⟨"", [exDefaultEntry], []⟩ exLeafWorld).world.store
      = exLeafWorld.store :=
  have hall : ∀ raw ∈ [exDefaultEntry], readsLeaf exLeafWorld.store raw := by
    intro raw hr
    rw [List.mem_singleton.1 hr]
    exact ⟨"b", "/y", _, "remote", rfl, rfl, rfl⟩
  ⟨stored_leaf_value_wins.2.1 ⟨"", [exDefaultEntry], []⟩ exLeafWorld [] [] exDefaultEntry
      "b" "/y" "remote"
      [("name", .str "b"), ("path", .str "/y"), ("value", .str ""),
        ("default", .str "fallback"), ("delete", .bool false)]
      (by rfl) (by rfl) (by rfl) (by rfl) (by simp) (by simp) (by rfl),
    stored_leaf_value_wins.2.2 ⟨"", [exDefaultEntry], []⟩ exLeafWorld hall⟩

/-- C2, the claim as stated fails: two entries named `b` read `/z` (holding `remote`) and
`/y` (holding `other`); the key list is in the order of the hash codes. Apply returns nil
with `var[b] = other`, not the value `remote` stored at the path of the first entry; in
the other processing order `var[b] = remote`, not the value stored at `/y`. -/
theorem same_name_read_overrides_var :
    resourceEtcdKeysHash exPlainZ = some 3566626823 ∧
    resourceEtcdKeysHash exPlainY = some 4290460612 ∧
    exTwoLeafWorld.store.get "/z" = (some ⟨some ⟨"remote", false⟩⟩, none) ∧
    exTwoLeafWorld.store.get "/y" = (some ⟨some ⟨"other", false⟩⟩, none) ∧
    (resourceEtcdKeysCreate ⟨"", [exPlainZ, exPlainY], []⟩ exTwoLeafWorld).status
      = .returned none ∧
    mapGet (resourceEtcdKeysCreate ⟨"", [exPlainZ, exPlainY], []⟩ exTwoLeafWorld).d.var "b"
      = some "other" ∧
    (resourceEtcdKeysCreate ⟨"", [exPlainY, exPlainZ], []⟩ exTwoLeafWorld).status
      = .returned none ∧
    mapGet (resourceEtcdKeysCreate ⟨"", [exPlainY, exPlainZ], []⟩ exTwoLeafWorld).d.var "b"
      = some "remote" := by
  refine ⟨by rfl, by rfl, by rfl, by rfl, by rfl, by rfl, by rfl, by rfl⟩

/-- C3, the claim as amended: for an entry with empty value whose `get` on the store apply
starts from reports key-not-found (nil response) and which configures a default (a
string, or a bool rendered `true`/`false`): if apply returns nil and no entry processed
before it writes that path, then the call apply made for the entry is a `Get`, not a
`Set`, and `var[name]` is the default provided no entry processed after it has the same
name. And apply on a key set made only of such entries returns nil, leaves the store as it
was and makes only `Get` calls. -/
theorem default_resolves_without_write :
    (∀ (d : ResourceData) (w : World) (pre post : List Raw) (raw : Raw)
      (key path dv : String) (sub : Sub) (e : GoError),
      d.key = pre ++ raw :: post → parseKey raw = .ok (key, path, sub) →
      mapGet sub "value" = some (.str "") →
      w.store.get path = (none, some e) → IsKeyNotFound e = true → hasDefault sub dv →
      (∀ r ∈ pre, writerOf r ≠ some path) →
      (resourceEtcdKeysCreate d w).status = .returned none →
      ((∀ r ∈ post, nameOf r ≠ some key) →
        mapGet (resourceEtcdKeysCreate d w).d.var key = some dv) ∧
      ∃ cs, (resourceEtcdKeysCreate d w).world.calls = w.calls ++ cs ∧
        cs.length = d.key.length ∧ cs[pre.length]? = some (.get path)) ∧
    (∀ (d : ResourceData) (w : World), (∀ raw ∈ d.key, readsDefault w.store raw) →
      (resourceEtcdKeysCreate d w).status = .returned none ∧
      (resourceEtcdKeysCreate d w).world.store = w.store ∧
      ∃ gets, (resourceEtcdKeysCreate d w).world.calls = w.calls ++ gets ∧
        ∀ c ∈ gets, c.isGet = true) := by
  constructor
  · intro d w pre post raw key path dv sub e hkeys hp hv hget he hdef hpre hok
    exact create_read_at d w pre post raw key path dv sub hkeys hp hv
      (by rw [hget]; exact fatalGet_notFound e he)
      (by rw [hget]; exact attributeValue_default sub key dv hdef) hpre hok
  · intro d w h
    obtain ⟨h1, h2, _, h4⟩ := create_reads_ok d w (fun raw hr => Or.inr (h raw hr))
    exact ⟨h1, h2, h4⟩

/-- Witness of C3 as amended: the entry `b` with default `fallback`, on the empty store. -/
theorem default_resolves_without_write_witness :
    (mapGet (resourceEtcdKeysCreate ⟨"", [exDefaultEntry], []⟩ ⟨emptyStore, []⟩).d.var "b"
        = some "fallback" ∧
      ∃ cs, (resourceEtcdKeysCreate ⟨"", [exDefaultEntry], []⟩ ⟨emptyStore, []⟩).world.calls
          = [] ++ cs ∧ cs.length = 1 ∧ cs[0]? = some (.get "/y")) ∧
    ((resourceEtcdKeysCreate ⟨"", [exDefaultEntry], []⟩ ⟨emptyStore, []⟩).status
        = .returned none ∧
      (resourceEtcdKeysCreate ⟨"", [exDefaultEntry], []⟩ ⟨emptyStore, []⟩).world.store
        = emptyStore ∧
      ∃ gets, (resourceEtcdKeysCreate ⟨"", [exDefaultEntry], []⟩ ⟨emptyStore, []⟩).world.calls
          = [] ++ gets ∧ ∀ c ∈ gets, c.isGet = true) :=
  have h := default_resolves_without_write.1 ⟨"", [exDefaultEntry], []⟩ ⟨emptyStore, []⟩
    [] [] exDefaultEntry "b" "/y" "fallback"
    [("name", .str "b"), ("path", .str "/y"), ("value", .str ""),
      ("default", .str "fallback"), ("delete", .bool false)]
    (.etcd ⟨EcodeKeyNotFound, "Key not found", "/y", 0⟩)
    (by rfl) (by rfl) (by rfl) (by rfl) (by rfl) (Or.inl (by rfl)) (by simp) (by rfl)
  ⟨⟨h.1 (by simp), h.2⟩,
    default_resolves_without_write.2 ⟨"", [exDefaultEntry], []⟩ ⟨emptyStore, []⟩
      (fun raw hr => by
        rw [List.mem_singleton.1 hr]
        exact ⟨"b", "/y", _, "fallback", .etcd ⟨EcodeKeyNotFound, "Key not found", "/y", 0⟩,
          rfl, rfl, rfl, rfl, Or.inl rfl⟩)⟩

/-- C3, the claim as stated fails: two entries named `b` with empty value, on `/z` with
default `first` and on `/y` with default `second`, both absent from the empty store; the
key list is in the order of the hash codes. Apply returns nil with `var[b] = second`, not
the default of the first entry; in the other processing order `var[b] = first`, not the
default of the entry on `/y`. -/
theorem same_name_default_overrides_var :
    resourceEtcdKeysHash exDefaultZ = some 3566626823 ∧
    resourceEtcdKeysHash exDefaultY = some 4290460612 ∧
    (resourceEtcdKeysCreate ⟨"", [exDefaultZ, exDefaultY], []⟩ ⟨emptyStore, []⟩).status
      = .returned none ∧
    (resourceEtcdKeysCreate ⟨"", [exDefaultZ, exDefaultY], []⟩ ⟨emptyStore, []⟩).d.var
      = [("b", "second")] ∧
    (resourceEtcdKeysCreate ⟨"", [exDefaultY, exDefaultZ], []⟩ ⟨emptyStore, []⟩).status
      = .returned none ∧
    (resourceEtcdKeysCreate ⟨"", [exDefaultY, exDefaultZ], []⟩ ⟨emptyStore, []⟩).d.var
      = [("b", "first")] := by
  refine ⟨by rfl, by rfl, by rfl, by rfl, by rfl, by rfl⟩

end Etcd
